import Mathlib

/-!
Verification development for the LC-MS deconvolution engine
(src/backend/lcms_app/analysis.py), shallowly embedded over ℚ.
IEEE-754 doubles are modelled by exact rationals; external numeric
library routines (scipy gaussian_filter1d, numpy polyfit/log, sqrt)
are abstracted as function parameters in a NumLib record, since their
code is not part of this repository.
-/

set_option maxHeartbeats 1000000
set_option maxRecDepth 4000

namespace LcmsSpec

/-- Python int() conversion of a float: truncation toward zero. -/
def truncQ (q : ℚ) : ℤ := if 0 ≤ q then ⌊q⌋ else ⌈q⌉

/-- numpy-style array read with default 0 (all accesses in the pipeline are in range). -/
def qget (l : List ℚ) (i : ℕ) : ℚ := l.getD i 0

/-- np.diff: successive differences. -/
def diffs : List ℚ → List ℚ
  | a :: b :: rest => (b - a) :: diffs (b :: rest)
  | _ => []

/-- Stable insertion step: x is placed before the first y it may precede. -/
def insertLe {α : Type} (le : α → α → Bool) (x : α) : List α → List α
  | [] => [x]
  | y :: ys => if le x y then x :: y :: ys else y :: insertLe le x ys

/-- Stable insertion sort, modelling Python list.sort / sorted (both stable). -/
def sortLe {α : Type} (le : α → α → Bool) : List α → List α
  | [] => []
  | x :: xs => insertLe le x (sortLe le xs)

/-- Ascending sort of rationals. -/
def sortQAsc (l : List ℚ) : List ℚ := sortLe (fun a b => decide (a ≤ b)) l

/-- np.median: middle element, or the mean of the two middle elements. -/
def median (l : List ℚ) : ℚ :=
  let s := sortQAsc l
  let n := s.length
  if n = 0 then 0
  else if n % 2 = 1 then qget s (n / 2)
  else (qget s (n / 2 - 1) + qget s (n / 2)) / 2

/-- Sum of a list of rationals (np.sum / Python sum). -/
def sumQ (l : List ℚ) : ℚ := l.foldr (· + ·) 0

/-- Python max over a nonempty list (0 for the empty list, never hit by the code). -/
def listMax (l : List ℚ) : ℚ :=
  match l with
  | [] => 0
  | x :: xs => xs.foldl max x

/-- Python min over a nonempty list (0 for the empty list, never hit by the code). -/
def listMin (l : List ℚ) : ℚ :=
  match l with
  | [] => 0
  | x :: xs => xs.foldl min x

/-- Proton mass constant selected by use_monoisotopic_proton:
1.007276 Da (monoisotopic) or 1.00784 Da (average). -/
def protonMass (useMono : Bool) : ℚ :=
  if useMono then 1007276 / 1000000 else 100784 / 100000

/-! ## get_theoretical_mz (analysis.py lines 1286-1306) -/

/-- get_theoretical_mz: for each charge z, mz = (mass + z * proton) / z.
Each output entry is the (charge, mz) pair of the source's result dict. -/
def getTheoreticalMz (mass : ℚ) (chargeStates : List ℤ) (useMono : Bool) :
    List (ℤ × ℚ) :=
  chargeStates.map (fun z => (z, (mass + (z : ℚ) * protonMass useMono) / (z : ℚ)))

/-! ## _parabolic_centroid (analysis.py lines 672-702) -/

/-- _parabolic_centroid: sub-bin apex estimate through the three samples
around peak_idx; offset clamped to [-1, 1]; boundary indices and
near-degenerate curvature fall back to mz[peak_idx]. -/
def parabolicCentroid (mz inten : List ℚ) (peakIdx : ℕ) : ℚ :=
  if peakIdx = 0 ∨ mz.length - 1 ≤ peakIdx then qget mz peakIdx
  else
    let y0 := qget inten (peakIdx - 1)
    let y1 := qget inten peakIdx
    let y2 := qget inten (peakIdx + 1)
    let x0 := qget mz (peakIdx - 1)
    let x1 := qget mz peakIdx
    let x2 := qget mz (peakIdx + 1)
    let denom := 2 * (y0 - 2 * y1 + y2)
    if |denom| < 1 / 10000000000 then x1
    else
      let delta := (y0 - y2) / denom
      let dx := (x2 - x0) / 2
      let deltaC := max (-1) (min 1 delta)
      x1 + deltaC * dx

/-! ## Peak-picker minimum distance (analysis.py lines 852-853) -/

/-- The min_distance choice of the deconvolution peak picker:
resolution = median(diff(mz)) (1.0 for fewer than two points), and
min_distance_pts = max(2, int(pwhh / resolution)) when resolution > 0, else 2.
Python int() truncates toward zero. -/
def minDistancePts (mz : List ℚ) (pwhh : ℚ) : ℤ :=
  let resolution := if 1 < mz.length then median (diffs mz) else 1
  if 0 < resolution then max 2 (truncQ (pwhh / resolution)) else 2

/-- Modelled from the spec (for the refinement comparison of claim C6 only):
min_distance = max(2, round(pwhh / median(diff(mz)))), the quotient rounded
to the nearest integer. -/
def minDistancePtsSpec (mz : List ℚ) (pwhh : ℚ) : ℤ :=
  let resolution := if 1 < mz.length then median (diffs mz) else 1
  if 0 < resolution then max 2 (round (pwhh / resolution)) else 2

/-! ## Data model -/

/-- A centroided spectrum peak (the dicts built at analysis.py lines 856-866):
mz is the parabolic-centroid estimate, intensity the smoothed apex intensity,
index the position in the spectrum arrays. -/
structure Peak where
  mz : ℚ
  intensity : ℚ
  index : ℕ
deriving DecidableEq, Inhabited

/-- An assigned ion (the dicts built at analysis.py lines 923-931):
mass = (mz - proton) * charge, index is the peak index it claims. -/
structure Ion where
  mz : ℚ
  intensity : ℚ
  charge : ℤ
  mass : ℚ
  index : ℕ
deriving DecidableEq, Inhabited

/-- External numeric library routines used by the source but not implemented
in this repository; abstracted as parameters. -/
structure NumLib where
  /-- scipy.ndimage.gaussian_filter1d intensity sigma_pts. -/
  gauss : List ℚ → ℚ → List ℚ
  /-- The r-squared of the numpy degree-2 least-squares fit of
  log-intensities against charge (np.log, np.polyfit, np.polyval),
  before the clamp applied by _gaussian_fit_r2. -/
  polyR2 : List ℤ → List ℚ → ℚ
  /-- The square root used by np.std. -/
  sqrt : ℚ → ℚ

/-! ## _smooth_spectrum (analysis.py lines 628-642) -/

/-- _smooth_spectrum: FWHM in Da converted to sigma in samples via
sigma = (fwhm / 2.3548) / median(diff(mz)); returns the input when the
spectrum has fewer than two points, fwhm <= 0, resolution <= 0 or
sigma < 0.5, else applies the Gaussian filter. -/
def smoothSpectrum (lib : NumLib) (mz inten : List ℚ) (fwhmDa : ℚ) : List ℚ :=
  if mz.length < 2 ∨ fwhmDa ≤ 0 then inten
  else
    let resolution := median (diffs mz)
    if resolution ≤ 0 then inten
    else
      let sigmaDa := fwhmDa / (23548 / 10000)
      let sigmaPts := sigmaDa / resolution
      if sigmaPts < 1 / 2 then inten else lib.gauss inten sigmaPts

/-! ## _find_peaks_simple (analysis.py lines 645-669) -/

/-- The block list around an accepted index: idx + o for
o in range(-min_distance_pts + 1, min_distance_pts). -/
def blockRange (idx : ℕ) (d : ℤ) : List ℤ :=
  (List.range (2 * d - 1).toNat).map (fun k => (idx : ℤ) - (d - 1) + (k : ℤ))

/-- Greedy acceptance by descending intensity, blocking indices within
±(min_distance_pts - 1) of an accepted peak. -/
def greedyKeep (d : ℤ) : List ℕ → List ℤ → List ℕ
  | [], _ => []
  | i :: rest, blocked =>
    if (i : ℤ) ∈ blocked then greedyKeep d rest blocked
    else i :: greedyKeep d rest (blockRange i d ++ blocked)

/-- _find_peaks_simple: simple local maxima (y[i] >= both neighbours),
sorted by descending intensity (stable, so ties break to the lower index),
greedily filtered by the minimum-distance block list, returned ascending. -/
def findPeaksSimple (inten : List ℚ) (minDistancePts : ℤ) : List ℕ :=
  let cand := (List.range inten.length).filter
    (fun i => 1 ≤ i ∧ i + 1 < inten.length ∧
      qget inten (i - 1) ≤ qget inten i ∧ qget inten (i + 1) ≤ qget inten i)
  let byIntDesc := sortLe (fun i j => decide (qget inten j ≤ qget inten i)) cand
  sortLe (fun i j => decide (i ≤ j)) (greedyKeep minDistancePts byIntDesc [])

/-! ## Peak collection inside the deconvolution routines
(analysis.py lines 851-867 and 1218-1236) -/

/-- The centroided above-noise peak list shared by
deconvolute_protein_local_lcms_machine_like and detect_singly_charged:
smooth, pick simple maxima at the computed minimum distance, drop maxima
below noise_cutoff, centroid each survivor. In source order (ascending index),
before any intensity sort. -/
def collectPeaks (lib : NumLib) (mz intensityIn : List ℚ) (pwhh noiseCutoff : ℚ) :
    List Peak :=
  let inten := smoothSpectrum lib mz intensityIn pwhh
  let idxs := findPeaksSimple inten (minDistancePts mz pwhh)
  (idxs.filter (fun i => ¬ qget inten i < noiseCutoff)).map
    (fun i => { mz := parabolicCentroid mz inten i, intensity := qget inten i, index := i })

/-- Peak ordering used by the deconvolution engine: descending intensity,
stable. -/
def peakIntDesc (p q : Peak) : Bool := decide (q.intensity ≤ p.intensity)

/-- The engine's peak picker output: collected peaks sorted by descending
intensity (analysis.py line 867). -/
def pickPeaks (lib : NumLib) (mz intensityIn : List ℚ) (pwhh noiseCutoff : ℚ) :
    List Peak :=
  sortLe peakIntDesc (collectPeaks lib mz intensityIn pwhh noiseCutoff)

/-! ## _reject_mass_outliers (analysis.py lines 723-750) -/

/-- _reject_mass_outliers: below four ions nothing happens; otherwise reject
ions with |mass - median| >= 5.0 when the median absolute deviation is below
0.1, or >= 3 * mad otherwise; fall back to the originals when fewer than
three ions survive. Called with the default max_mad_factor = 3.0. -/
def rejectMassOutliers (masses intensities : List ℚ) : List ℚ × List ℚ :=
  if masses.length < 4 then (masses, intensities)
  else
    let medianMass := median masses
    let mad := median (masses.map (fun m => |m - medianMass|))
    let thr := if mad < 1 / 10 then (5 : ℚ) else 3 * mad
    let kept := (masses.zip intensities).filter (fun p => |p.1 - medianMass| < thr)
    if kept.length < 3 then (masses, intensities)
    else (kept.map Prod.fst, kept.map Prod.snd)

/-- Distinct elements in first-occurrence order, skipping already-seen ones. -/
def firstDedupAux : List ℤ → List ℤ → List ℤ
  | [], _ => []
  | z :: zs, seen =>
    if z ∈ seen then firstDedupAux zs seen
    else z :: firstDedupAux zs (z :: seen)

/-- Distinct elements in first-occurrence order (size of a Python set /
np.unique; only the count is consumed by the source). -/
def firstDedup (l : List ℤ) : List ℤ := firstDedupAux l []

/-- The strongest ion at charge z: first ion attaining the maximal intensity
among ions of that charge (the dict loop at analysis.py lines 787-790
replaces only on strictly larger intensity). -/
def bestIonAt (z : ℤ) (ions : List Ion) : Option Ion :=
  (ions.filter (fun i => i.charge = z)).foldl
    (fun acc i => match acc with
      | none => some i
      | some b => if b.intensity < i.intensity then some i else some b) none

/-- analysis.py lines 787-794: one representative (strongest) ion per charge,
charges in first-occurrence order (Python dict insertion order). -/
def perChargeBest (ions : List Ion) : List Ion :=
  (firstDedup (ions.map Ion.charge)).filterMap (fun z => bestIonAt z ions)

/-! ## _estimate_component_mass (analysis.py lines 753-810) -/

/-- _estimate_component_mass with the default broad_charge_threshold = 20 and
core_rel_intensity = 0.35: MAD-cleaned median for narrow envelopes; for broad
envelopes (at least 20 distinct charges) the strongest ion per charge is kept,
outlier rejection is re-applied, the core above 35 percent of the maximal
per-charge intensity is selected when at least three ions remain, and the
intensity-weighted mean is returned. Empty input returns 0 (the source
returns NaN there; the engine never calls it on an empty list). -/
def estimateComponentMass (ions : List Ion) : ℚ :=
  if ions = [] then 0
  else
    let masses := ions.map Ion.mass
    let intensities := ions.map Ion.intensity
    let charges := ions.map Ion.charge
    let cleaned := rejectMassOutliers masses intensities
    if cleaned.1 = [] ∨ cleaned.2 = [] then median masses
    else
      let massMedian := median cleaned.1
      if (firstDedup charges).length < 20 then massMedian
      else
        let pc := perChargeBest ions
        let pcCleaned := rejectMassOutliers (pc.map Ion.mass) (pc.map Ion.intensity)
        if pcCleaned.1.length < 3 then massMedian
        else
          let maxInt := listMax pcCleaned.2
          let core := (pcCleaned.1.zip pcCleaned.2).filter
            (fun p => (35 : ℚ) / 100 * maxInt ≤ p.2)
          let sel := if 0 < maxInt ∧ 3 ≤ core.length then core
            else pcCleaned.1.zip pcCleaned.2
          if sumQ (sel.map Prod.snd) ≤ 0 then massMedian
          else sumQ (sel.map (fun p => p.1 * p.2)) / sumQ (sel.map Prod.snd)

/-- Modelled from the spec (for the refinement comparison of claim C4 only):
the MAD cleaning as the claim words it — med = median(masses),
mad = median(|masses - med|); reject |mass - med| >= 5.0 when mad < 0.1 and
>= 3 * mad otherwise; keep the original array when fewer than three survive. -/
def cleanMassesSpec (masses : List ℚ) : List ℚ :=
  let med := median masses
  let mad := median (masses.map (fun m => |m - med|))
  let thr := if mad < 1 / 10 then (5 : ℚ) else 3 * mad
  let survivors := masses.filter (fun m => |m - med| < thr)
  if survivors.length < 3 then masses else survivors

/-! ## Configuration of deconvolute_protein_local_lcms_machine_like
(analysis.py lines 813-831) -/

/-- The keyword parameters of deconvolute_protein_local_lcms_machine_like,
with their source defaults. mwAssignCutoff and envelopeCutoff feed
only dead locals in the source (strong and envelope_ok are computed and
never used) and are kept for completeness. -/
structure Config where
  minCharge : ℤ := 5
  maxCharge : ℤ := 50
  minPeaks : ℕ := 3
  noiseCutoff : ℚ := 1000
  abundanceCutoff : ℚ := 1 / 10
  mwAgreement : ℚ := 5 / 10000
  mwAssignCutoff : ℚ := 4 / 10
  envelopeCutoff : ℚ := 1 / 2
  pwhh : ℚ := 6 / 10
  lowMw : ℚ := 500
  highMw : ℚ := 50000
  contigMin : ℤ := 3
  useMzAgreement : Bool := false
  useMonoisotopicProton : Bool := false
  maxOverlap : ℚ := 0
deriving DecidableEq

/-- The proton mass chosen by the config. -/
def Config.proton (cfg : Config) : ℚ := protonMass cfg.useMonoisotopicProton

/-- np.arange(min_charge, max_charge + 1): the candidate charge states. -/
def chargesList (cfg : Config) : List ℤ :=
  (List.range (cfg.maxCharge + 1 - cfg.minCharge).toNat).map
    (fun k => cfg.minCharge + (k : ℤ))

/-- Row of the precomputed mass matrix: mass of peak p read at charge z,
(mz - proton) * z. -/
def massOf (proton : ℚ) (p : Peak) (z : ℤ) : ℚ := (p.mz - proton) * (z : ℚ)

/-- np.argmin along a row: the first charge attaining the minimal value of f
(ties resolved to the earliest index, as numpy does). -/
def bestCharge (f : ℤ → ℚ) : List ℤ → Option ℤ
  | [] => none
  | z :: zs =>
    match bestCharge f zs with
    | none => some z
    | some w => if f w < f z then some w else some z

/-- _gaussian_fit_r2 (analysis.py lines 705-720): zero below three points,
else the numpy quadratic log-space r-squared clamped to [0, 1]. -/
def gaussianFitR2 (lib : NumLib) (charges : List ℤ) (intensities : List ℚ) : ℚ :=
  if charges.length < 3 then 0
  else max 0 (min 1 (lib.polyR2 charges intensities))

/-! ## Per-(anchor, trial charge) ion-set assembly
(analysis.py lines 905-932 and 1101-1119) -/

/-- The vectorised ion-set assembly around an anchor: peaks whose intensity
clears max(noise_cutoff, anchor_intensity * abundance_cutoff) are searched;
each takes its argmin-error charge; it is accepted when the normalised mass
error is at most mw_agreement, with the optional m/z-agreement refilter
(primary pass only; the residual pass passes useMz = false). In the source,
masked peaks carry an infinite error and can never pass the finite
mw_agreement gate, which the mask test models. -/
def assembleIons (proton noiseCutoff abundanceCutoff mwAgreement : ℚ)
    (useMz : Bool) (zs : List ℤ) (ps : List Peak) (anchorInt M0 : ℚ) : List Ion :=
  ps.filterMap (fun p =>
    if max noiseCutoff (anchorInt * abundanceCutoff) ≤ p.intensity then
      match bestCharge (fun z => |massOf proton p z - M0| / M0) zs with
      | none => none
      | some z =>
        if |massOf proton p z - M0| / M0 ≤ mwAgreement then
          if useMz then
            let mzPred := (M0 + (z : ℚ) * proton) / (z : ℚ)
            if |p.mz - mzPred| / mzPred ≤ mwAgreement then
              some { mz := p.mz, intensity := p.intensity, charge := z,
                     mass := massOf proton p z, index := p.index }
            else none
          else
            some { mz := p.mz, intensity := p.intensity, charge := z,
                   mass := massOf proton p z, index := p.index }
        else none
    else none)

/-- sorted(set(charges)): ascending distinct charge states of an ion set. -/
def sortedUniqueCharges (ions : List Ion) : List ℤ :=
  sortLe (fun a b => decide (a ≤ b)) (firstDedup (ions.map Ion.charge))

/-- The contiguity scan of analysis.py lines 940-947 (and 1126-1133):
longest run of consecutive integers in the sorted unique charge list,
starting from 1 even on an empty list, exactly as the Python loop does. -/
def longestRunAux : List ℤ → ℤ → ℕ → ℕ → ℕ
  | [], _, _, longest => longest
  | z :: zs, prev, current, longest =>
    if z = prev + 1 then
      longestRunAux zs z (current + 1) (max longest (current + 1))
    else longestRunAux zs z 1 longest

/-- Longest consecutive run, as computed by the source loop. -/
def longestRun : List ℤ → ℕ
  | [] => 1
  | z :: zs => longestRunAux zs z 1 1

/-- The primary-pass contiguity gates (analysis.py lines 948-963): the basic
contig_min check, then the two-tier gate — at least 8 charges need a run of
max(contig_min, 6) and a run ratio of at least 0.60, 4 to 7 charges need a
run of 4 and the same ratio. -/
def contiguityOkPrimary (contigMin : ℤ) (zsU : List ℤ) : Prop :=
  let longest := longestRun zsU
  let numCharges := zsU.length
  (1 < contigMin → contigMin ≤ (longest : ℤ)) ∧
  (if 8 ≤ numCharges then
      max contigMin 6 ≤ (longest : ℤ) ∧ (3 : ℚ) / 5 ≤ (longest : ℚ) / (numCharges : ℚ)
    else if 4 ≤ numCharges then
      4 ≤ longest ∧ (3 : ℚ) / 5 ≤ (longest : ℚ) / (numCharges : ℚ)
    else True)

instance (contigMin : ℤ) (zsU : List ℤ) : Decidable (contiguityOkPrimary contigMin zsU) := by
  unfold contiguityOkPrimary
  exact instDecidableAnd

/-- The relaxed second-pass contiguity gate (analysis.py lines 1123-1135):
with at least two distinct charges, a consecutive run of two suffices. -/
def contiguityOkResidual (zsU : List ℤ) : Prop :=
  2 ≤ zsU.length → 2 ≤ longestRun zsU

instance (zsU : List ℤ) : Decidable (contiguityOkResidual zsU) := by
  unfold contiguityOkResidual; infer_instance

/-! ## Candidates (analysis.py lines 887-1003 and 1089-1153) -/

/-- A candidate ion set. ionIdx is the _ion_indices set, mzBins the 0.5-Da
binned _ion_mzs set (primary pass only, empty for residual candidates which
do not carry it), ions the _ions list. -/
structure Candidate where
  mass : ℚ
  massStd : ℚ
  chargeStates : List ℤ
  numCharges : ℕ
  intensity : ℚ
  peaksFound : ℕ
  r2 : ℚ
  anchorIdx : ℕ
  ionIdx : Finset ℕ
  mzBins : Finset ℤ
  ions : List Ion
  secondPass : Bool
deriving DecidableEq, Inhabited

/-- np.std (population): the square root of the mean squared deviation. -/
def stdQ (lib : NumLib) (xs : List ℚ) : ℚ :=
  if xs = [] then lib.sqrt 0
  else
    let m := sumQ xs / (xs.length : ℚ)
    lib.sqrt (sumQ (xs.map (fun x => (x - m) ^ 2)) / (xs.length : ℚ))

/-- The primary-pass candidate for one anchor peak and one trial charge z0
(analysis.py lines 899-1003): target mass bound check, ion assembly, size
and contiguity gates, then the candidate record. Returns none when any gate
rejects. -/
def primaryCandidate (lib : NumLib) (cfg : Config) (ps : List Peak)
    (anchor : Peak) (z0 : ℤ) : Option Candidate :=
  let M0 := (anchor.mz - cfg.proton) * (z0 : ℚ)
  if ¬ (cfg.lowMw ≤ M0 ∧ M0 ≤ cfg.highMw) then none
  else
    let ions := assembleIons cfg.proton cfg.noiseCutoff cfg.abundanceCutoff
      cfg.mwAgreement cfg.useMzAgreement (chargesList cfg) ps anchor.intensity M0
    if ions.length < cfg.minPeaks then none
    else
      let ionCharges := sortedUniqueCharges ions
      if ¬ contiguityOkPrimary cfg.contigMin ionCharges then none
      else
        some
          { mass := estimateComponentMass ions
            massStd := stdQ lib (ions.map Ion.mass)
            chargeStates := ionCharges
            numCharges := (firstDedup (ions.map Ion.charge)).length
            intensity := sumQ (ions.map Ion.intensity)
            peaksFound := ions.length
            r2 := gaussianFitR2 lib ionCharges (ions.map Ion.intensity)
            anchorIdx := anchor.index
            ionIdx := (ions.map Ion.index).toFinset
            mzBins := ((ions.map (fun i => truncQ (i.mz * 2)))).toFinset
            ions := ions
            secondPass := false }

/-- The residual-pass candidate for one anchor and trial charge (analysis.py
lines 1097-1153): same assembly without the m/z-agreement refilter, size
gate, relaxed contiguity, second_pass tag. -/
def residualCandidate (lib : NumLib) (cfg : Config) (ps : List Peak)
    (anchor : Peak) (z0 : ℤ) : Option Candidate :=
  let M0 := (anchor.mz - cfg.proton) * (z0 : ℚ)
  if ¬ (cfg.lowMw ≤ M0 ∧ M0 ≤ cfg.highMw) then none
  else
    let ions := assembleIons cfg.proton cfg.noiseCutoff cfg.abundanceCutoff
      cfg.mwAgreement false (chargesList cfg) ps anchor.intensity M0
    if ions.length < cfg.minPeaks then none
    else
      let ionCharges := sortedUniqueCharges ions
      if ¬ contiguityOkResidual ionCharges then none
      else
        some
          { mass := estimateComponentMass ions
            massStd := stdQ lib (ions.map Ion.mass)
            chargeStates := ionCharges
            numCharges := (firstDedup ionCharges).length
            intensity := sumQ (ions.map Ion.intensity)
            peaksFound := ions.length
            r2 := gaussianFitR2 lib ionCharges (ions.map Ion.intensity)
            anchorIdx := 0
            ionIdx := (ions.map Ion.index).toFinset
            mzBins := ∅
            ions := ions
            secondPass := true }

/-- All primary candidates: the top min(30, len(peaks)) peaks serve as
anchors, each tried at every in-range charge (analysis.py lines 872-1003). -/
def genPrimaryCandidates (lib : NumLib) (cfg : Config) (peaks : List Peak) :
    List Candidate :=
  (peaks.take 30).flatMap (fun anchor =>
    (chargesList cfg).filterMap (primaryCandidate lib cfg peaks anchor))

/-- Candidate ranking: num_charges descending, then intensity descending
(the reverse=True tuple sort of analysis.py line 1009; stable). -/
def candKeyGE (c d : Candidate) : Bool :=
  decide (d.numCharges < c.numCharges ∨
    (c.numCharges = d.numCharges ∧ d.intensity ≤ c.intensity))

/-! ## Selection (analysis.py lines 1005-1179) -/

/-- A returned component (the public result dicts). ionIdx is a ghost field:
the set of peak indices of the component's ions. The source drops this
bookkeeping set from the public dict after using it to update used_peaks;
it is retained here so the exclusive-assignment invariant can be stated. -/
structure Component where
  mass : ℚ
  massStd : ℚ
  chargeStates : List ℤ
  numCharges : ℕ
  intensity : ℚ
  peaksFound : ℕ
  r2 : ℚ
  ionMzs : List ℚ
  ionCharges : List ℤ
  ionIntensities : List ℚ
  secondPass : Bool
  ionIdx : Finset ℕ
deriving DecidableEq, Inhabited

/-- Building the selected primary component (analysis.py lines 1042-1067):
when the ion list still meets min_peaks the mass and bookkeeping are
recomputed from the full ion list; otherwise the candidate's public fields
are copied (the fallback never fires for generated candidates). -/
def mkPrimaryComponent (lib : NumLib) (cfg : Config) (c : Candidate) : Component :=
  if cfg.minPeaks ≤ c.ions.length then
    { mass := estimateComponentMass c.ions
      massStd := stdQ lib (c.ions.map Ion.mass)
      chargeStates := sortedUniqueCharges c.ions
      numCharges := (firstDedup (c.ions.map Ion.charge)).length
      intensity := sumQ (c.ions.map Ion.intensity)
      peaksFound := c.ions.length
      r2 := c.r2
      ionMzs := c.ions.map Ion.mz
      ionCharges := c.ions.map Ion.charge
      ionIntensities := c.ions.map Ion.intensity
      secondPass := false
      ionIdx := c.ionIdx }
  else
    { mass := c.mass, massStd := c.massStd, chargeStates := c.chargeStates
      numCharges := c.numCharges, intensity := c.intensity
      peaksFound := c.peaksFound, r2 := c.r2
      ionMzs := c.ions.map Ion.mz, ionCharges := c.ions.map Ion.charge
      ionIntensities := c.ions.map Ion.intensity
      secondPass := false, ionIdx := c.ionIdx }

/-- One step of the primary deferred selection (analysis.py lines 1017-1070):
skip empty ion-index sets; reject when the used-peak overlap fraction
exceeds max_overlap; reject duplicates — an already-selected component
within 50 ppm relative mass that shares a charge state; otherwise append
the component and claim its peaks. -/
def selStep (lib : NumLib) (cfg : Config)
    (st : List Component × Finset ℕ) (c : Candidate) : List Component × Finset ℕ :=
  if c.ionIdx = ∅ then st
  else if ((c.ionIdx ∩ st.2).card : ℚ) / (c.ionIdx.card : ℚ) ≤ cfg.maxOverlap then
    if ∃ r ∈ st.1, |r.mass - c.mass| / c.mass < 5 / 100000 ∧
        ∃ z ∈ r.chargeStates, z ∈ c.chargeStates then st
    else (st.1 ++ [mkPrimaryComponent lib cfg c], st.2 ∪ c.ionIdx)
  else st

/-- Building a selected residual component (analysis.py lines 1169-1173):
public candidate fields plus the ion lists; the second_pass tag survives. -/
def mkResidualComponent (c : Candidate) : Component :=
  { mass := c.mass, massStd := c.massStd, chargeStates := c.chargeStates
    numCharges := c.numCharges, intensity := c.intensity
    peaksFound := c.peaksFound, r2 := c.r2
    ionMzs := c.ions.map Ion.mz, ionCharges := c.ions.map Ion.charge
    ionIntensities := c.ions.map Ion.intensity
    secondPass := c.secondPass, ionIdx := c.ionIdx }

/-- One step of the residual selection (analysis.py lines 1158-1175):
skip when a nonempty ion set overlaps the residual used set beyond
max_overlap; skip when within 0.1 percent relative mass of any
already-collected result (primary results included, and residual results
appended so far); otherwise append and claim. -/
def selStepResidual (cfg : Config)
    (st : List Component × Finset ℕ) (c : Candidate) : List Component × Finset ℕ :=
  if c.ionIdx ≠ ∅ ∧ cfg.maxOverlap < ((c.ionIdx ∩ st.2).card : ℚ) / (c.ionIdx.card : ℚ)
  then st
  else if ∃ r ∈ st.1, |r.mass - c.mass| / c.mass < 1 / 1000 then st
  else (st.1 ++ [mkResidualComponent c], st.2 ∪ c.ionIdx)

/-- Component ranking for the final sort: num_charges descending, then
intensity descending (analysis.py line 1178; stable). -/
def compKeyGE (a b : Component) : Bool :=
  decide (b.numCharges < a.numCharges ∨
    (a.numCharges = b.numCharges ∧ b.intensity ≤ a.intensity))

/-- The residual second pass (analysis.py lines 1072-1175): peaks not claimed
by the primary selection, re-sorted by intensity, top 15 as anchors, relaxed
candidates sorted by the same key and folded through the residual selection
starting from the primary results and an empty residual used set. -/
def residualPass (lib : NumLib) (cfg : Config) (peaks : List Peak)
    (used : Finset ℕ) (results : List Component) : List Component :=
  let residualIdx := (peaks.map Peak.index).toFinset \ used
  if residualIdx.card < cfg.minPeaks then results
  else
    let rps := sortLe peakIntDesc (peaks.filter (fun p => p.index ∈ residualIdx))
    let rcands := (rps.take 15).flatMap (fun anchor =>
      (chargesList cfg).filterMap (residualCandidate lib cfg rps anchor))
    ((sortLe candKeyGE rcands).foldl (selStepResidual cfg) (results, ∅)).1

/-- deconvolute_protein_local_lcms_machine_like (analysis.py lines 813-1179):
peak picking, primary candidate generation, ranked deferred selection,
residual second pass, final ranking. -/
def deconvolute (lib : NumLib) (cfg : Config) (mz intensityIn : List ℚ) :
    List Component :=
  if mz = [] ∨ intensityIn = [] then []
  else
    let peaks := pickPeaks lib mz intensityIn cfg.pwhh cfg.noiseCutoff
    if peaks.length < cfg.minPeaks then []
    else
      let cands := genPrimaryCandidates lib cfg peaks
      if cands = [] then []
      else
        let st := (sortLe candKeyGE cands).foldl (selStep lib cfg) ([], ∅)
        sortLe compKeyGE (residualPass lib cfg peaks st.2 st.1)

/-! ## detect_singly_charged (analysis.py lines 1182-1283) -/

/-- A singly-charged detection result dict, carrying the extra mz field the
source includes. -/
structure SinglyResult where
  mass : ℚ
  massStd : ℚ
  chargeStates : List ℤ
  numCharges : ℕ
  intensity : ℚ
  peaksFound : ℕ
  r2 : ℚ
  mz : ℚ
  ionMzs : List ℚ
  ionCharges : List ℤ
  ionIntensities : List ℚ
deriving DecidableEq, Inhabited

/-- detect_singly_charged: smooth and pick peaks exactly as the
deconvolution picker does (unsorted), drop peaks below
min_intensity_pct percent of the base peak, compute mass = mz - proton,
reject outside [low_mw, high_mw], reject m/z inside any exclusion range,
emit fixed-shape z = 1 components, sorted by descending intensity. -/
def detectSinglyCharged (lib : NumLib) (noiseCutoff minIntensityPct lowMw highMw pwhh : ℚ)
    (excludeMzRanges : List (ℚ × ℚ)) (useMono : Bool) (mz intensityIn : List ℚ) :
    List SinglyResult :=
  let proton := protonMass useMono
  if mz = [] ∨ intensityIn = [] then []
  else
    let peaks := collectPeaks lib mz intensityIn pwhh noiseCutoff
    if peaks = [] then []
    else
      let maxIntensity := listMax (peaks.map Peak.intensity)
      let minIntensity := maxIntensity * minIntensityPct / 100
      let raw := peaks.filterMap (fun p =>
        if p.intensity < minIntensity then none
        else
          let mass := p.mz - proton
          if mass < lowMw ∨ highMw < mass then none
          else if excludeMzRanges ≠ [] ∧
              ∃ pr ∈ excludeMzRanges, pr.1 ≤ p.mz ∧ p.mz ≤ pr.2 then none
          else
            some { mass := mass, massStd := 0, chargeStates := [1], numCharges := 1
                   intensity := p.intensity, peaksFound := 1, r2 := 1, mz := p.mz
                   ionMzs := [p.mz], ionCharges := [1], ionIntensities := [p.intensity] })
      sortLe (fun a b => decide (b.intensity ≤ a.intensity)) raw

/-! ## sum_spectra_in_range (analysis.py lines 296-367) -/

/-- A stored MS scan: a 1-D intensity vector on the shared axis, a private
(mz, intensity) pair, or a missing/unrecognised scan. -/
inductive Scan where
  | vec (intensities : List ℚ) : Scan
  | pairs (mzs intensities : List ℚ) : Scan
  | malformed : Scan
deriving DecidableEq

/-- The slice of SampleData consumed by sum_spectra_in_range. -/
structure SampleData where
  msScans : Option (List Scan)
  msTimes : Option (List ℚ)
  msMzAxis : Option (List ℚ)
deriving DecidableEq

/-- Elementwise vector addition (numpy +=; the engine only adds
equal-length vectors). -/
def addVec (a b : List ℚ) : List ℚ := List.zipWith (· + ·) a b

/-- np.arange(lo, hi, step) for step > 0: lo + k * step for
k < ceil((hi - lo) / step). -/
def arangeQ (lo hi step : ℚ) : List ℚ :=
  (List.range (⌈(hi - lo) / step⌉).toNat).map (fun k => lo + (k : ℚ) * step)

/-- np.histogram bin membership against explicit edges: half-open bins,
the last bin closed on the right. -/
def inHistBin (edges : List ℚ) (j : ℕ) (v : ℚ) : Prop :=
  qget edges j ≤ v ∧
    (v < qget edges (j + 1) ∨ (j + 2 = edges.length ∧ v ≤ qget edges (j + 1)))

instance (edges : List ℚ) (j : ℕ) (v : ℚ) : Decidable (inHistBin edges j v) := by
  unfold inHistBin; infer_instance

/-- np.histogram(values, bins=edges, weights): per-bin weight sums. -/
def histogramW (edges : List ℚ) (vals wts : List ℚ) : List ℚ :=
  (List.range (edges.length - 1)).map (fun j =>
    sumQ ((vals.zip wts).map (fun p => if inHistBin edges j p.1 then p.2 else 0)))

/-- sum_spectra_in_range: scans in [start_time, end_time] are summed on the
shared axis when present, else their (mz, intensity) points are pooled and
re-binned into 0.01-Da bins; empty arrays when no data or no scan matches. -/
def sumSpectraInRange (sample : SampleData) (startTime endTime : ℚ) :
    List ℚ × List ℚ :=
  match sample.msScans, sample.msTimes with
  | some scans, some times =>
    let scanIndices := (List.range times.length).filter
      (fun i => startTime ≤ qget times i ∧ qget times i ≤ endTime)
    if scanIndices = [] then ([], [])
    else
      match sample.msMzAxis with
      | some axis =>
        let summed := scanIndices.foldl (fun acc i =>
          match scans.getD i Scan.malformed with
          | Scan.vec v => addVec acc v
          | _ => acc) (List.replicate axis.length (0 : ℚ))
        (axis, summed)
      | none =>
        let pooled := scanIndices.foldl (fun (acc : List ℚ × List ℚ) i =>
          match scans.getD i Scan.malformed with
          | Scan.pairs ms is => (acc.1 ++ ms, acc.2 ++ is)
          | _ => acc) ([], [])
        if pooled.1 = [] then ([], [])
        else
          let binEdges := arangeQ (listMin pooled.1) (listMax pooled.1 + 1 / 100) (1 / 100)
          let centers := (binEdges.zip binEdges.tail).map (fun p => (p.1 + p.2) / 2)
          (centers, histogramW binEdges pooled.1 pooled.2)
  | _, _ => ([], [])

/-! ## Sorting infrastructure lemmas -/

theorem insertLe_perm {α : Type} (le : α → α → Bool) (x : α) (l : List α) :
    (insertLe le x l).Perm (x :: l) := by
  induction l with
  | nil => exact List.Perm.refl _
  | cons y ys ih =>
    simp only [insertLe]
    split
    · exact List.Perm.refl _
    · exact (ih.cons y).trans (List.Perm.swap x y ys)

theorem sortLe_perm {α : Type} (le : α → α → Bool) (l : List α) :
    (sortLe le l).Perm l := by
  induction l with
  | nil => exact List.Perm.refl _
  | cons x xs ih => exact (insertLe_perm le x (sortLe le xs)).trans (ih.cons x)

theorem mem_sortLe {α : Type} {le : α → α → Bool} {l : List α} {a : α} :
    a ∈ sortLe le l ↔ a ∈ l := (sortLe_perm le l).mem_iff

theorem pairwise_le_insertLe {α : Type} (le : α → α → Bool)
    (htot : ∀ a b, le a b = true ∨ le b a = true)
    (htrans : ∀ a b c, le a b = true → le b c = true → le a c = true)
    (x : α) : ∀ l, l.Pairwise (fun a b => le a b = true) →
    (insertLe le x l).Pairwise (fun a b => le a b = true) := by
  intro l
  induction l with
  | nil => intro _; simp [insertLe]
  | cons y ys ih =>
    intro h
    rcases List.pairwise_cons.mp h with ⟨hy, hys⟩
    simp only [insertLe]
    split
    · rename_i hxy
      refine List.pairwise_cons.mpr ⟨?_, h⟩
      intro b hb
      rcases List.mem_cons.mp hb with rfl | hb
      · exact hxy
      · exact htrans x y b hxy (hy b hb)
    · rename_i hxy
      refine List.pairwise_cons.mpr ⟨?_, ih hys⟩
      intro b hb
      rcases List.mem_cons.mp ((insertLe_perm le x ys).mem_iff.mp hb) with heq | hb
      · rw [heq]
        rcases htot x y with h' | h'
        · exact absurd h' hxy
        · exact h'
      · exact hy b hb

theorem pairwise_le_sortLe {α : Type} (le : α → α → Bool)
    (htot : ∀ a b, le a b = true ∨ le b a = true)
    (htrans : ∀ a b c, le a b = true → le b c = true → le a c = true)
    (l : List α) : (sortLe le l).Pairwise (fun a b => le a b = true) := by
  induction l with
  | nil => exact List.Pairwise.nil
  | cons x xs ih => exact pairwise_le_insertLe le htot htrans x _ ih

theorem pairwise_insertLe_of_rel {α : Type} (le : α → α → Bool) {R : α → α → Prop}
    (htrans : ∀ a b c, le a b = true → le b c = true → le a c = true) (x : α) :
    ∀ l, l.Pairwise (fun a b => le a b = true) → l.Pairwise R →
    (∀ z ∈ l, (le x z = true → R x z) ∧ (le x z = false → R z x)) →
    (insertLe le x l).Pairwise R := by
  intro l
  induction l with
  | nil => intro _ _ _; simp [insertLe]
  | cons y ys ih =>
    intro hsorted hR hcond
    rcases List.pairwise_cons.mp hsorted with ⟨hy, hys⟩
    rcases List.pairwise_cons.mp hR with ⟨hRy, hRys⟩
    simp only [insertLe]
    split
    · rename_i hxy
      refine List.pairwise_cons.mpr ⟨?_, hR⟩
      intro b hb
      rcases List.mem_cons.mp hb with heq | hb
      · rw [heq]
        exact (hcond y (List.mem_cons_self y ys)).1 hxy
      · exact (hcond b (List.mem_cons_of_mem y hb)).1 (htrans x y b hxy (hy b hb))
    · rename_i hxy
      refine List.pairwise_cons.mpr ⟨?_, ih hys hRys
        (fun z hz => hcond z (List.mem_cons_of_mem y hz))⟩
      intro b hb
      rcases List.mem_cons.mp ((insertLe_perm le x ys).mem_iff.mp hb) with heq | hb
      · rw [heq]
        exact (hcond y (List.mem_cons_self y ys)).2 (Bool.eq_false_iff.mpr hxy)
      · exact hRy b hb

/-- Stable-sort transport: an asymmetric pairwise guarantee S on the input
carries over to R on the sorted output, provided S pins down the orientation
the sort will choose. -/
theorem pairwise_sortLe_of_rel {α : Type} (le : α → α → Bool) {R S : α → α → Prop}
    (htot : ∀ a b, le a b = true ∨ le b a = true)
    (htrans : ∀ a b c, le a b = true → le b c = true → le a c = true)
    (hS : ∀ a b, S a b → (le a b = true → R a b) ∧ (le a b = false → R b a)) :
    ∀ l, l.Pairwise S → (sortLe le l).Pairwise R := by
  intro l
  induction l with
  | nil => intro _; exact List.Pairwise.nil
  | cons x xs ih =>
    intro h
    rcases List.pairwise_cons.mp h with ⟨hx, hxs⟩
    exact pairwise_insertLe_of_rel le htrans x _
      (pairwise_le_sortLe le htot htrans xs) (ih hxs)
      (fun z hz => hS x z (hx z (mem_sortLe.mp hz)))

/-! ## Claim C8: theoretical m/z round trip -/

/-- Claim C8: for every mass and every charge z at least 1 in the supplied
charge list, the pair (z, mz) returned by get_theoretical_mz satisfies
mz * z - z * proton = mass, with proton selected by use_monoisotopic_proton —
the theoretical m/z map inverts the neutral-mass map. Exact in the rational
embedding (hence within 1 ulp of the float source). -/
theorem theoretical_mz_roundtrip (mass : ℚ) (zs : List ℤ) (useMono : Bool)
    (z : ℤ) (mzv : ℚ) (hm : (z, mzv) ∈ getTheoreticalMz mass zs useMono)
    (hz : 1 ≤ z) : mzv * (z : ℚ) - (z : ℚ) * protonMass useMono = mass := by
  simp only [getTheoreticalMz, List.mem_map, Prod.mk.injEq] at hm
  obtain ⟨w, _, hw, hv⟩ := hm
  have h1w : 1 ≤ w := hw ▸ hz
  have hw0 : (w : ℚ) ≠ 0 := by
    exact_mod_cast (by omega : w ≠ 0)
  rw [← hw, ← hv, div_mul_cancel₀ _ hw0]
  ring

/-- Witness for C8 at mass 1000, charge 2, average proton. -/
theorem theoretical_mz_roundtrip_witness :
    ((2 : ℤ), (1000 + (2 : ℚ) * protonMass false) / 2) ∈
      getTheoreticalMz 1000 [2] false ∧
    ((1000 + (2 : ℚ) * protonMass false) / 2) * ((2 : ℤ) : ℚ) -
      ((2 : ℤ) : ℚ) * protonMass false = 1000 :=
  ⟨by simp [getTheoreticalMz],
   theoretical_mz_roundtrip 1000 [2] false 2 _ (by simp [getTheoreticalMz])
     (by decide)⟩

/-! ## Claim C9: the parabolic centroid stays near its apex bin -/

/-- Claim C9 (implicit): for an interior peak index the parabolic centroid
lies within half the neighbour span of the apex bin (the fitted offset is
clamped to [-1, 1]); a boundary index returns mz[i] exactly, and so does an
interior index whose curvature denominator is below 1e-10 in absolute
value. -/
theorem parabolic_centroid_stays_near_apex (mz inten : List ℚ) (i : ℕ) :
    ((i = 0 ∨ mz.length - 1 ≤ i) → parabolicCentroid mz inten i = qget mz i) ∧
    (0 < i → i < mz.length - 1 → qget mz (i - 1) ≤ qget mz (i + 1) →
      qget mz i - (qget mz (i + 1) - qget mz (i - 1)) / 2 ≤
          parabolicCentroid mz inten i ∧
        parabolicCentroid mz inten i ≤
          qget mz i + (qget mz (i + 1) - qget mz (i - 1)) / 2) ∧
    (0 < i → i < mz.length - 1 →
      |2 * (qget inten (i - 1) - 2 * qget inten i + qget inten (i + 1))| <
        1 / 10000000000 →
      parabolicCentroid mz inten i = qget mz i) := by
  refine ⟨?_, ?_, ?_⟩
  · intro h
    simp only [parabolicCentroid, if_pos h]
  · intro h1 h2 hsort
    have hcond : ¬ (i = 0 ∨ mz.length - 1 ≤ i) := by omega
    simp only [parabolicCentroid, if_neg hcond]
    have hdx : (0 : ℚ) ≤ (qget mz (i + 1) - qget mz (i - 1)) / 2 := by linarith
    split
    · constructor <;> linarith
    · set delta := (qget inten (i - 1) - qget inten (i + 1)) /
        (2 * (qget inten (i - 1) - 2 * qget inten i + qget inten (i + 1))) with hdel
      have hlo : (-1 : ℚ) ≤ max (-1) (min 1 delta) := le_max_left _ _
      have hhi : max (-1) (min 1 delta) ≤ 1 :=
        max_le (by norm_num) (min_le_left _ _)
      have hmul1 := mul_le_mul_of_nonneg_right hhi hdx
      have hmul2 := mul_le_mul_of_nonneg_right hlo hdx
      constructor <;> nlinarith
  · intro h1 h2 hdeg
    have hcond : ¬ (i = 0 ∨ mz.length - 1 ≤ i) := by omega
    simp only [parabolicCentroid, if_neg hcond, if_pos hdeg]

/-- Witness for C9: boundary behaviour at i = 0 and interval membership at
the interior index of a concrete three-point spectrum. -/
theorem parabolic_centroid_witness :
    parabolicCentroid [1, 2, 4] [0, 5, 1] 0 = qget [1, 2, 4] 0 ∧
    (qget [1, 2, 4] 1 - (qget [1, 2, 4] 2 - qget [1, 2, 4] 0) / 2 ≤
        parabolicCentroid [1, 2, 4] [0, 5, 1] 1 ∧
      parabolicCentroid [1, 2, 4] [0, 5, 1] 1 ≤
        qget [1, 2, 4] 1 + (qget [1, 2, 4] 2 - qget [1, 2, 4] 0) / 2) :=
  ⟨(parabolic_centroid_stays_near_apex [1, 2, 4] [0, 5, 1] 0).1 (Or.inl rfl),
   (parabolic_centroid_stays_near_apex [1, 2, 4] [0, 5, 1] 1).2.1
     (by decide) (by decide) (by norm_num [qget])⟩

/-! ## Claim C6: peak-picker minimum separation (corrected) -/

/-- Counterexample to claim C6 as stated: with uniform spacing 2/9 Da and the
default pwhh 0.6, the quotient is 2.7; the claimed rounding would give
min_distance = 3, but the source's int() truncation gives 2. -/
theorem min_distance_round_counterexample :
    minDistancePts [0, 2 / 9] (6 / 10) = 2 ∧
      minDistancePtsSpec [0, 2 / 9] (6 / 10) = 3 := by
  constructor <;> with_unfolding_all decide

/-- Claim C6 as amended: for a spectrum with at least two m/z points,
positive median spacing and nonnegative pwhh, the peak picker chooses
min_distance = max(2, floor(pwhh / median(diff(mz)))) — the quotient is
truncated toward zero (floored, as it is nonnegative), not rounded. -/
theorem min_distance_uses_truncation (mz : List ℚ) (pwhh : ℚ)
    (hlen : 2 ≤ mz.length) (hres : 0 < median (diffs mz)) (hp : 0 ≤ pwhh) :
    minDistancePts mz pwhh = max 2 ⌊pwhh / median (diffs mz)⌋ := by
  have hlen' : 1 < mz.length := hlen
  simp only [minDistancePts, if_pos hlen', if_pos hres]
  have hq : 0 ≤ pwhh / median (diffs mz) := div_nonneg hp (le_of_lt hres)
  simp [truncQ, if_pos hq]

/-- Witness for the amended C6 on a concrete two-point spectrum. -/
theorem min_distance_uses_truncation_witness :
    2 ≤ ([0, 2 / 9] : List ℚ).length ∧ 0 < median (diffs [0, 2 / 9]) ∧
      0 ≤ (6 : ℚ) / 10 ∧
      minDistancePts [0, 2 / 9] (6 / 10) =
        max 2 ⌊(6 : ℚ) / 10 / median (diffs [0, 2 / 9])⌋ :=
  ⟨by decide, by with_unfolding_all decide, by norm_num,
   min_distance_uses_truncation [0, 2 / 9] (6 / 10) (by decide)
     (by with_unfolding_all decide) (by norm_num)⟩

/-! ## Claim C4: narrow-envelope mass estimate -/

theorem zip_filter_fst (f : ℚ → Bool) :
    ∀ (xs ys : List ℚ), xs.length = ys.length →
    ((xs.zip ys).filter (fun p => f p.1)).map Prod.fst = xs.filter f := by
  intro xs
  induction xs with
  | nil => intro ys _; simp
  | cons x xs ih =>
    intro ys h
    cases ys with
    | nil => simp at h
    | cons y ys =>
      have h' : xs.length = ys.length := by simpa using h
      cases hf : f x with
      | true => simp [List.filter_cons, hf, ih ys h']
      | false => simp [List.filter_cons, hf, ih ys h']

/-- The first component of _reject_mass_outliers agrees with the
spec-worded cleaning: the source's extra early return below four ions is
extensionally the same, because with at most three ions either every ion
survives (and the survivors are the whole array) or fewer than three do
(and the originals are kept). -/
theorem rejectMassOutliers_fst_eq_spec (masses intensities : List ℚ)
    (hlen : masses.length = intensities.length) :
    (rejectMassOutliers masses intensities).1 = cleanMassesSpec masses := by
  simp only [rejectMassOutliers, cleanMassesSpec]
  generalize (if median (masses.map fun m => |m - median masses|) < 1 / 10 then (5 : ℚ)
    else 3 * median (masses.map fun m => |m - median masses|)) = thr
  by_cases h4 : masses.length < 4
  · simp only [if_pos h4]
    split
    · rfl
    · rename_i hs
      push_neg at hs
      have hsub := List.filter_sublist (p := fun m => decide (|m - median masses| < thr)) masses
      have hle := hsub.length_le
      exact (hsub.eq_of_length (by omega)).symm
  · simp only [if_neg h4]
    have hz := zip_filter_fst (fun m => decide (|m - median masses| < thr))
      masses intensities hlen
    have hlen2 : ((masses.zip intensities).filter
        (fun p => decide (|p.1 - median masses| < thr))).length =
        (masses.filter (fun m => decide (|m - median masses| < thr))).length := by
      rw [← hz, List.length_map]
    rw [hlen2]
    split
    · rfl
    · exact hz

theorem cleanMassesSpec_ne_nil (masses : List ℚ) (h : masses ≠ []) :
    cleanMassesSpec masses ≠ [] := by
  simp only [cleanMassesSpec]
  generalize (if median (masses.map fun m => |m - median masses|) < 1 / 10 then (5 : ℚ)
    else 3 * median (masses.map fun m => |m - median masses|)) = thr
  split
  · exact h
  · rename_i hs
    intro hcontra
    rw [hcontra] at hs
    simp at hs

theorem rejectMassOutliers_snd_ne_nil (masses intensities : List ℚ)
    (hlen : masses.length = intensities.length) (hne : masses ≠ []) :
    (rejectMassOutliers masses intensities).2 ≠ [] := by
  have hpos : 0 < masses.length := List.length_pos.mpr hne
  simp only [rejectMassOutliers]
  generalize (if median (masses.map fun m => |m - median masses|) < 1 / 10 then (5 : ℚ)
    else 3 * median (masses.map fun m => |m - median masses|)) = thr
  by_cases h4 : masses.length < 4
  · simp only [if_pos h4]
    intro hcontra
    have h0 : intensities = [] := hcontra
    rw [h0] at hlen
    simp at hlen
    exact hne hlen
  · simp only [if_neg h4]
    split
    · intro hcontra
      have h0 : intensities = [] := hcontra
      rw [h0] at hlen
      simp at hlen
      exact hne hlen
    · rename_i hs
      push_neg at hs
      intro hcontra
      have h0 := List.map_eq_nil_iff.mp hcontra
      rw [h0] at hs
      simp at hs

/-- Claim C4: for every nonempty ion list with fewer than 20 distinct
charges, _estimate_component_mass returns the median of the MAD-cleaned
masses, where the cleaning computes med = median(masses),
mad = median(|masses - med|), rejects ions with |mass - med| >= 5.0 when
mad < 0.1 and with |mass - med| >= 3*mad otherwise, and keeps the original
array when fewer than three ions survive. -/
theorem narrow_envelope_mass_is_cleaned_median (ions : List Ion)
    (hne : ions ≠ [])
    (hK : (firstDedup (ions.map Ion.charge)).length < 20) :
    estimateComponentMass ions = median (cleanMassesSpec (ions.map Ion.mass)) := by
  have hlen : (ions.map Ion.mass).length = (ions.map Ion.intensity).length := by
    simp
  have hmne : ions.map Ion.mass ≠ [] := by
    simpa using hne
  have h1 := rejectMassOutliers_fst_eq_spec (ions.map Ion.mass)
    (ions.map Ion.intensity) hlen
  have h1ne : (rejectMassOutliers (ions.map Ion.mass) (ions.map Ion.intensity)).1 ≠ [] := by
    rw [h1]
    exact cleanMassesSpec_ne_nil _ hmne
  have h2ne := rejectMassOutliers_snd_ne_nil (ions.map Ion.mass)
    (ions.map Ion.intensity) hlen hmne
  unfold estimateComponentMass
  simp only [if_neg hne]
  rw [if_neg (by
    intro hor
    rcases hor with h | h
    · exact h1ne h
    · exact h2ne h)]
  rw [if_pos hK, h1]

/-- Witness for C4 on a concrete three-ion list. -/
theorem narrow_envelope_mass_witness :
    ([⟨10, 5, 2, 100, 0⟩, ⟨11, 6, 3, 101, 1⟩, ⟨12, 7, 4, 102, 2⟩] : List Ion) ≠ [] ∧
    (firstDedup (([⟨10, 5, 2, 100, 0⟩, ⟨11, 6, 3, 101, 1⟩,
      ⟨12, 7, 4, 102, 2⟩] : List Ion).map Ion.charge)).length < 20 ∧
    estimateComponentMass [⟨10, 5, 2, 100, 0⟩, ⟨11, 6, 3, 101, 1⟩, ⟨12, 7, 4, 102, 2⟩] =
      median (cleanMassesSpec (([⟨10, 5, 2, 100, 0⟩, ⟨11, 6, 3, 101, 1⟩,
        ⟨12, 7, 4, 102, 2⟩] : List Ion).map Ion.mass)) :=
  ⟨by decide, by decide,
   narrow_envelope_mass_is_cleaned_median _ (by decide) (by decide)⟩

/-! ## Claim C5: invalid time range in sum_spectra_in_range (corrected) -/

/-- A two-scan sample with a shared axis, used to exercise
sum_spectra_in_range concretely. -/
def exSampleC5 : SampleData :=
  { msScans := some [Scan.vec [5], Scan.vec [7]]
    msTimes := some [1, 2]
    msMzAxis := some [100] }

/-- Counterexample to claim C5 as stated: with t_end < t_start the source
returns the plain empty-array pair — the very same ordinary value produced
by a successful query over a valid window matching no scans — and raises
nothing; the call is not surfaced as a failure. -/
theorem invalid_range_counterexample :
    sumSpectraInRange exSampleC5 2 1 = (([] : List ℚ), ([] : List ℚ)) ∧
    sumSpectraInRange exSampleC5 10 20 = (([] : List ℚ), ([] : List ℚ)) := by
  constructor <;> with_unfolding_all decide

/-- Claim C5 as amended: calling sum_spectra_in_range with t_end < t_start
returns the normal empty result (empty mz and intensity arrays), identical
to a successful query matching no scans; no failure or error is raised.
(The source has no raising path at all in this function.) -/
theorem invalid_range_returns_empty (sample : SampleData)
    (startTime endTime : ℚ) (h : endTime < startTime) :
    sumSpectraInRange sample startTime endTime = ([], []) := by
  unfold sumSpectraInRange
  cases hsc : sample.msScans with
  | none => rfl
  | some scans =>
    cases htm : sample.msTimes with
    | none => rfl
    | some times =>
      have hempty : (List.range times.length).filter
          (fun i => decide (startTime ≤ qget times i ∧ qget times i ≤ endTime)) = [] := by
        rw [List.filter_eq_nil_iff]
        intro i _
        simp only [decide_eq_true_eq, not_and]
        intro h1 h2
        linarith
      simp only [hempty, if_pos]

/-- Witness for the amended C5 on the concrete sample. -/
theorem invalid_range_returns_empty_witness :
    (1 : ℚ) < 2 ∧ sumSpectraInRange exSampleC5 2 1 = ([], []) :=
  ⟨by norm_num, invalid_range_returns_empty exSampleC5 2 1 (by norm_num)⟩

/-! ## Claim C7: singly-charged detector output shape -/

/-- A trivial instantiation of the abstracted external numeric routines,
used by concrete witnesses (the claims hold for every instantiation). -/
def libTriv : NumLib :=
  { gauss := fun l _ => l, polyR2 := fun _ _ => 0, sqrt := fun _ => 0 }

/-- Claim C7: every result of detect_singly_charged has
charge_states = [1], num_charges = 1, peaks_found = 1, r2 = 1.0, mass equal
to the peak's centroided m/z minus the configured proton mass, mass within
[low_mw, high_mw], and its m/z outside every supplied exclusion range. -/
theorem singly_charged_shape (lib : NumLib)
    (noiseCutoff minIntensityPct lowMw highMw pwhh : ℚ)
    (excl : List (ℚ × ℚ)) (useMono : Bool) (mz intensityIn : List ℚ)
    (r : SinglyResult)
    (hr : r ∈ detectSinglyCharged lib noiseCutoff minIntensityPct lowMw highMw
      pwhh excl useMono mz intensityIn) :
    r.chargeStates = [1] ∧ r.numCharges = 1 ∧ r.peaksFound = 1 ∧ r.r2 = 1 ∧
    r.mass = r.mz - protonMass useMono ∧ lowMw ≤ r.mass ∧ r.mass ≤ highMw ∧
    ∀ pr ∈ excl, ¬ (pr.1 ≤ r.mz ∧ r.mz ≤ pr.2) := by
  simp only [detectSinglyCharged] at hr
  split at hr
  · simp at hr
  · split at hr
    · simp at hr
    · rcases List.mem_filterMap.mp (mem_sortLe.mp hr) with ⟨p, hp, hpe⟩
      split at hpe
      · exact absurd hpe (by simp)
      · split at hpe
        · exact absurd hpe (by simp)
        · split at hpe
          · exact absurd hpe (by simp)
          · rename_i hint hmass hexcl
            obtain rfl := Option.some.inj hpe
            push_neg at hmass
            refine ⟨rfl, rfl, rfl, rfl, rfl, hmass.1, hmass.2, ?_⟩
            intro pr hpr
            by_cases hnil : excl = []
            · rw [hnil] at hpr
              simp at hpr
            · have hno := not_and.mp hexcl hnil
              push_neg at hno
              intro hin
              have hlt : pr.2 < p.mz := hno pr hpr hin.1
              have hle : p.mz ≤ pr.2 := hin.2
              linarith

/-- Witness for C7 on a concrete three-point spectrum whose single peak
survives every filter. -/
theorem singly_charged_shape_witness :
    ((detectSinglyCharged libTriv 1 1 1 1000 0 [] false
        [4, 5, 6] [0, 100, 0]).head!).chargeStates = [1] ∧
    ((detectSinglyCharged libTriv 1 1 1 1000 0 [] false
        [4, 5, 6] [0, 100, 0]).head!).numCharges = 1 ∧
    ((detectSinglyCharged libTriv 1 1 1 1000 0 [] false
        [4, 5, 6] [0, 100, 0]).head!).peaksFound = 1 ∧
    ((detectSinglyCharged libTriv 1 1 1 1000 0 [] false
        [4, 5, 6] [0, 100, 0]).head!).r2 = 1 ∧
    ((detectSinglyCharged libTriv 1 1 1 1000 0 [] false
        [4, 5, 6] [0, 100, 0]).head!).mass =
      ((detectSinglyCharged libTriv 1 1 1 1000 0 [] false
        [4, 5, 6] [0, 100, 0]).head!).mz - protonMass false ∧
    1 ≤ ((detectSinglyCharged libTriv 1 1 1 1000 0 [] false
        [4, 5, 6] [0, 100, 0]).head!).mass ∧
    ((detectSinglyCharged libTriv 1 1 1 1000 0 [] false
        [4, 5, 6] [0, 100, 0]).head!).mass ≤ 1000 ∧
    ∀ pr ∈ ([] : List (ℚ × ℚ)),
      ¬ (pr.1 ≤ ((detectSinglyCharged libTriv 1 1 1 1000 0 [] false
        [4, 5, 6] [0, 100, 0]).head!).mz ∧
        ((detectSinglyCharged libTriv 1 1 1 1000 0 [] false
        [4, 5, 6] [0, 100, 0]).head!).mz ≤ pr.2) :=
  singly_charged_shape libTriv 1 1 1 1000 0 [] false [4, 5, 6] [0, 100, 0] _
    (List.head!_mem_self (by with_unfolding_all decide))

/-! ## Facts about the candidate generator -/

theorem bestCharge_ne_none (f : ℤ → ℚ) (z : ℤ) (zs : List ℤ) :
    bestCharge f (z :: zs) ≠ none := by
  rw [bestCharge]
  cases bestCharge f zs with
  | none => simp
  | some u =>
    dsimp only
    split <;> simp

theorem bestCharge_mem (f : ℤ → ℚ) :
    ∀ (zs : List ℤ) (w : ℤ), bestCharge f zs = some w → w ∈ zs := by
  intro zs
  induction zs with
  | nil => intro w h; simp [bestCharge] at h
  | cons z zs ih =>
    intro w h
    rw [bestCharge] at h
    cases hb : bestCharge f zs with
    | none =>
      rw [hb] at h
      dsimp only at h
      rw [← Option.some.inj h]
      exact List.mem_cons_self z zs
    | some u =>
      rw [hb] at h
      dsimp only at h
      split at h
      · rw [← Option.some.inj h]
        exact List.mem_cons_of_mem z (ih u hb)
      · rw [← Option.some.inj h]
        exact List.mem_cons_self z zs

/-- np.argmin picks the unique zero of a nonnegative row. -/
theorem bestCharge_eq_of_unique_zero (f : ℤ → ℚ) (z0 : ℤ) :
    ∀ zs : List ℤ, z0 ∈ zs → f z0 = 0 →
    (∀ z ∈ zs, z ≠ z0 → 0 < f z) → bestCharge f zs = some z0 := by
  intro zs
  induction zs with
  | nil => intro h; simp at h
  | cons z zs ih =>
    intro hmem h0 hpos
    rw [bestCharge]
    cases hb : bestCharge f zs with
    | none =>
      dsimp only
      have hzs : zs = [] := by
        cases zs with
        | nil => rfl
        | cons a as => exact absurd hb (bestCharge_ne_none f a as)
      subst hzs
      rcases List.mem_cons.mp hmem with heq | h'
      · rw [heq]
      · simp at h'
    | some u =>
      dsimp only
      have hu : u ∈ zs := bestCharge_mem f zs u hb
      by_cases hz : z = z0
      · by_cases huz : u = z0
        · rw [if_neg (by rw [huz, hz, h0]; exact lt_irrefl 0), hz]
        · have hupos : 0 < f u := hpos u (List.mem_cons_of_mem z hu) huz
          rw [if_neg (by rw [hz, h0]; exact not_lt.mpr (le_of_lt hupos)), hz]
      · have hmem' : z0 ∈ zs := by
          rcases List.mem_cons.mp hmem with heq | h'
          · exact absurd heq.symm hz
          · exact h'
        have hres := ih hmem' h0 (fun w hw hwz => hpos w (List.mem_cons_of_mem z hw) hwz)
        rw [hres] at hb
        rw [← Option.some.inj hb]
        rw [if_pos (by rw [h0]; exact hpos z (List.mem_cons_self z zs) hz)]

/-- Every assembled ion is built from a peak of the searched list, keeping
its m/z, intensity and index. -/
theorem mem_assembleIons (proton nc ac mwa : ℚ) (useMz : Bool) (zs : List ℤ)
    (ps : List Peak) (aInt M0 : ℚ) (ion : Ion)
    (h : ion ∈ assembleIons proton nc ac mwa useMz zs ps aInt M0) :
    ∃ p ∈ ps, ion.index = p.index ∧ ion.mz = p.mz ∧
      ion.intensity = p.intensity := by
  rcases List.mem_filterMap.mp h with ⟨p, hp, hpe⟩
  refine ⟨p, hp, ?_⟩
  split at hpe
  · cases hb : bestCharge (fun z => |massOf proton p z - M0| / M0) zs with
    | none => rw [hb] at hpe; simp at hpe
    | some z =>
      rw [hb] at hpe
      simp only at hpe
      split at hpe
      · split at hpe
        · split at hpe
          · exact (Option.some.inj hpe) ▸ ⟨rfl, rfl, rfl⟩
          · simp at hpe
        · exact (Option.some.inj hpe) ▸ ⟨rfl, rfl, rfl⟩
      · simp at hpe
  · simp at hpe

/-- The anchor peak always joins its own candidate ion set: it passes the
intensity mask (abundance_cutoff at most 1), argmin assigns it exactly the
trial charge (its mass error is exactly zero and every other charge has a
strictly positive error), and the zero error passes both agreement gates. -/
theorem assembleIons_anchor_mem (proton nc ac mwa : ℚ) (useMz : Bool)
    (zs : List ℤ) (ps : List Peak) (anchor : Peak) (z0 : ℤ)
    (hz0 : z0 ∈ zs) (hmem : anchor ∈ ps)
    (hnoise : nc ≤ anchor.intensity) (hnn : 0 ≤ nc) (hac : ac ≤ 1)
    (hmw : 0 ≤ mwa) (hM0 : 0 < (anchor.mz - proton) * (z0 : ℚ)) :
    ∃ ion ∈ assembleIons proton nc ac mwa useMz zs ps anchor.intensity
      ((anchor.mz - proton) * (z0 : ℚ)),
      ion.index = anchor.index ∧ ion.charge = z0 ∧
      ion.mass = (anchor.mz - proton) * (z0 : ℚ) ∧ ion.mz = anchor.mz ∧
      ion.intensity = anchor.intensity := by
  have haInt : 0 ≤ anchor.intensity := le_trans hnn hnoise
  have hmzp : anchor.mz - proton ≠ 0 := by
    intro hzz
    rw [hzz, zero_mul] at hM0
    exact lt_irrefl 0 hM0
  have hz00 : (z0 : ℚ) ≠ 0 := by
    intro hzz
    rw [hzz, mul_zero] at hM0
    exact lt_irrefl 0 hM0
  have hmask : max nc (anchor.intensity * ac) ≤ anchor.intensity :=
    max_le hnoise (mul_le_of_le_one_right haInt hac)
  have hbest : bestCharge
      (fun z => |massOf proton anchor z - (anchor.mz - proton) * (z0 : ℚ)| /
        ((anchor.mz - proton) * (z0 : ℚ))) zs = some z0 := by
    apply bestCharge_eq_of_unique_zero _ _ _ hz0
    · simp [massOf]
    · intro z _ hne
      apply div_pos _ hM0
      rw [abs_pos, massOf, sub_ne_zero]
      intro heq
      exact hne (by
        have := mul_left_cancel₀ hmzp heq
        exact_mod_cast this)
  refine ⟨⟨anchor.mz, anchor.intensity, z0,
    massOf proton anchor z0, anchor.index⟩, ?_, rfl, rfl, by simp [massOf], rfl, rfl⟩
  apply List.mem_filterMap.mpr
  refine ⟨anchor, hmem, ?_⟩
  rw [if_pos hmask, hbest]
  simp only
  rw [if_pos (by simp [massOf, le_of_lt, hmw])]
  cases useMz with
  | false => rfl
  | true =>
    simp only [if_true]
    rw [if_pos (by
      have hpred : ((anchor.mz - proton) * (z0 : ℚ) + (z0 : ℚ) * proton) / (z0 : ℚ) =
          anchor.mz := by
        field_simp
        ring
      rw [hpred]
      simp [hmw])]

/-- All the structural facts a generated primary candidate satisfies. -/
theorem primaryCandidate_fields (lib : NumLib) (cfg : Config) (ps : List Peak)
    (anchor : Peak) (z0 : ℤ) (cand : Candidate)
    (h : primaryCandidate lib cfg ps anchor z0 = some cand) :
    cand.ions = assembleIons cfg.proton cfg.noiseCutoff cfg.abundanceCutoff
      cfg.mwAgreement cfg.useMzAgreement (chargesList cfg) ps anchor.intensity
      ((anchor.mz - cfg.proton) * (z0 : ℚ)) ∧
    cand.chargeStates = sortedUniqueCharges cand.ions ∧
    cand.numCharges = (firstDedup (cand.ions.map Ion.charge)).length ∧
    cand.mass = estimateComponentMass cand.ions ∧
    cand.intensity = sumQ (cand.ions.map Ion.intensity) ∧
    cand.ionIdx = (cand.ions.map Ion.index).toFinset ∧
    cand.secondPass = false ∧
    contiguityOkPrimary cfg.contigMin cand.chargeStates ∧
    cfg.lowMw ≤ (anchor.mz - cfg.proton) * (z0 : ℚ) ∧
    (anchor.mz - cfg.proton) * (z0 : ℚ) ≤ cfg.highMw ∧
    cfg.minPeaks ≤ cand.ions.length := by
  simp only [primaryCandidate] at h
  split at h
  · simp at h
  · rename_i hbounds
    rw [not_not] at hbounds
    split at h
    · simp at h
    · rename_i hsize
      push_neg at hsize
      split at h
      · simp at h
      · rename_i hcontig
        rw [not_not] at hcontig
        obtain rfl := Option.some.inj h
        exact ⟨rfl, rfl, rfl, rfl, rfl, rfl, rfl, hcontig, hbounds.1, hbounds.2,
          hsize⟩

/-- All the structural facts a generated residual candidate satisfies. -/
theorem residualCandidate_fields (lib : NumLib) (cfg : Config) (ps : List Peak)
    (anchor : Peak) (z0 : ℤ) (cand : Candidate)
    (h : residualCandidate lib cfg ps anchor z0 = some cand) :
    cand.ions = assembleIons cfg.proton cfg.noiseCutoff cfg.abundanceCutoff
      cfg.mwAgreement false (chargesList cfg) ps anchor.intensity
      ((anchor.mz - cfg.proton) * (z0 : ℚ)) ∧
    cand.chargeStates = sortedUniqueCharges cand.ions ∧
    cand.ionIdx = (cand.ions.map Ion.index).toFinset ∧
    cand.secondPass = true := by
  simp only [residualCandidate] at h
  split at h
  · simp at h
  · split at h
    · simp at h
    · split at h
      · simp at h
      · obtain rfl := Option.some.inj h
        exact ⟨rfl, rfl, rfl, rfl⟩

/-! ## Claim C10: anchor self-membership -/

/-- Claim C10 (implicit): every primary candidate (built with
abundance_cutoff at most 1, under the config sanity conditions
noise_cutoff >= 0, low_mw > 0, mw_agreement >= 0) contains its anchor peak
as an ion, assigned exactly the trial charge z0, with per-ion mass exactly
the target mass M0 = (anchor_mz - proton) * z0 — a zero relative error, so
the anchor is never masked out and never fails the agreement gate. -/
theorem anchor_self_membership (lib : NumLib) (cfg : Config) (ps : List Peak)
    (anchor : Peak) (z0 : ℤ) (cand : Candidate)
    (hac : cfg.abundanceCutoff ≤ 1) (hnn : 0 ≤ cfg.noiseCutoff)
    (hlow : 0 < cfg.lowMw) (hmw : 0 ≤ cfg.mwAgreement)
    (hmem : anchor ∈ ps) (hnoise : cfg.noiseCutoff ≤ anchor.intensity)
    (hz0 : z0 ∈ chargesList cfg)
    (hcand : primaryCandidate lib cfg ps anchor z0 = some cand) :
    ∃ ion ∈ cand.ions, ion.index = anchor.index ∧ ion.charge = z0 ∧
      ion.mass = (anchor.mz - cfg.proton) * (z0 : ℚ) ∧ ion.mz = anchor.mz := by
  obtain ⟨hions, _, _, _, _, _, _, _, hblow, _, _⟩ :=
    primaryCandidate_fields lib cfg ps anchor z0 cand hcand
  have hM0 : 0 < (anchor.mz - cfg.proton) * (z0 : ℚ) := lt_of_lt_of_le hlow hblow
  obtain ⟨ion, hmemI, h1, h2, h3, h4, _⟩ := assembleIons_anchor_mem cfg.proton
    cfg.noiseCutoff cfg.abundanceCutoff cfg.mwAgreement cfg.useMzAgreement
    (chargesList cfg) ps anchor z0 hz0 hmem hnoise hnn hac hmw hM0
  exact ⟨ion, hions ▸ hmemI, h1, h2, h3, h4⟩

/-- A small config for concrete runs: charges 1..3, tiny noise floor, wide
mass window. -/
def cfgW : Config :=
  { minCharge := 1, maxCharge := 3, minPeaks := 3, noiseCutoff := 1,
    abundanceCutoff := 0, mwAgreement := 1 / 1000, pwhh := 0,
    lowMw := 1, highMw := 1000000, contigMin := 3, maxOverlap := 0 }

/-- A seven-point spectrum holding the charge-1..3 envelope of a mass-12
species: peaks at (12 + z * 1.00784) / z for z = 1, 2, 3. -/
def mzW : List ℚ := [4, 500784 / 100000, 6, 700784 / 100000, 9,
  1300784 / 100000, 15]

/-- Intensities of the concrete spectrum: three symmetric local maxima. -/
def intW : List ℚ := [0, 100, 0, 100, 0, 100, 0]

/-- The picked peaks of the concrete spectrum. -/
def peaksW : List Peak := pickPeaks libTriv mzW intW cfgW.pwhh cfgW.noiseCutoff

/-- Witness for C10: in the concrete run, the candidate anchored at the
first picked peak with trial charge 3 contains that anchor as an ion at
charge 3 and mass (anchor_mz - proton) * 3. -/
theorem anchor_self_membership_witness :
    ∃ ion ∈ ((primaryCandidate libTriv cfgW peaksW peaksW.head! 3).getD
        default).ions,
      ion.index = peaksW.head!.index ∧ ion.charge = 3 ∧
      ion.mass = (peaksW.head!.mz - cfgW.proton) * ((3 : ℤ) : ℚ) ∧
      ion.mz = peaksW.head!.mz :=
  anchor_self_membership libTriv cfgW peaksW peaksW.head! 3 _
    (by norm_num [cfgW]) (by norm_num [cfgW]) (by norm_num [cfgW])
    (by norm_num [cfgW])
    (List.head!_mem_self (by with_unfolding_all decide))
    (by with_unfolding_all decide)
    (by with_unfolding_all decide)
    (by
      obtain ⟨c, hc⟩ := Option.isSome_iff_exists.mp
        (by with_unfolding_all decide :
          (primaryCandidate libTriv cfgW peaksW peaksW.head! 3).isSome = true)
      rw [hc]
      rfl)

/-! ## Claim C2: two-tier contiguity gate -/

theorem le_longestRunAux : ∀ (zs : List ℤ) (p : ℤ) (c l : ℕ),
    l ≤ longestRunAux zs p c l := by
  intro zs
  induction zs with
  | nil => intro p c l; exact le_refl l
  | cons z zs ih =>
    intro p c l
    rw [longestRunAux]
    split
    · exact le_trans (le_max_left l (c + 1)) (ih z (c + 1) (max l (c + 1)))
    · exact ih z 1 l

theorem one_le_longestRun (zs : List ℤ) : 1 ≤ longestRun zs := by
  cases zs with
  | nil => exact le_refl 1
  | cons z zs => exact le_longestRunAux zs z 1 1

/-- The two-tier contiguity property exactly as claim C2 words it. -/
def claimContigGate (contigMin : ℤ) (zsU : List ℤ) : Prop :=
  if 8 ≤ zsU.length then
    max contigMin 6 ≤ (longestRun zsU : ℤ) ∧
      (3 : ℚ) / 5 ≤ (longestRun zsU : ℚ) / (zsU.length : ℚ)
  else if 4 ≤ zsU.length then
    4 ≤ longestRun zsU ∧ (3 : ℚ) / 5 ≤ (longestRun zsU : ℚ) / (zsU.length : ℚ)
  else contigMin ≤ (longestRun zsU : ℤ)

theorem contiguityOkPrimary_implies_claim (contigMin : ℤ) (zsU : List ℤ)
    (h : contiguityOkPrimary contigMin zsU) : claimContigGate contigMin zsU := by
  obtain ⟨h1, h2⟩ := h
  unfold claimContigGate
  by_cases h8 : 8 ≤ zsU.length
  · rw [if_pos h8]
    simpa [if_pos h8] using h2
  · rw [if_neg h8]
    by_cases h4 : 4 ≤ zsU.length
    · rw [if_pos h4]
      simpa [if_neg h8, if_pos h4] using h2
    · rw [if_neg h4]
      by_cases hc : 1 < contigMin
      · exact h1 hc
      · push_neg at hc
        have hone : (1 : ℤ) ≤ (longestRun zsU : ℤ) := by
          exact_mod_cast one_le_longestRun zsU
        omega

theorem mem_genPrimaryCandidates {lib : NumLib} {cfg : Config}
    {peaks : List Peak} {c : Candidate}
    (h : c ∈ genPrimaryCandidates lib cfg peaks) :
    ∃ anchor ∈ peaks.take 30, ∃ z0 ∈ chargesList cfg,
      primaryCandidate lib cfg peaks anchor z0 = some c := by
  simp only [genPrimaryCandidates, List.mem_flatMap, List.mem_filterMap] at h
  obtain ⟨a, ha, z0, hz0, heq⟩ := h
  exact ⟨a, ha, z0, hz0, heq⟩

theorem mem_residualCands {lib : NumLib} {cfg : Config} {rps : List Peak}
    {c : Candidate}
    (h : c ∈ (rps.take 15).flatMap (fun anchor =>
      (chargesList cfg).filterMap (residualCandidate lib cfg rps anchor))) :
    ∃ anchor ∈ rps.take 15, ∃ z0 ∈ chargesList cfg,
      residualCandidate lib cfg rps anchor z0 = some c := by
  simp only [List.mem_flatMap, List.mem_filterMap] at h
  obtain ⟨a, ha, z0, hz0, heq⟩ := h
  exact ⟨a, ha, z0, hz0, heq⟩

/-- The selected primary component keeps its candidate's public key fields. -/
theorem mkPrimaryComponent_fields (lib : NumLib) (cfg : Config) (c : Candidate)
    (hcs : c.chargeStates = sortedUniqueCharges c.ions)
    (hnc : c.numCharges = (firstDedup (c.ions.map Ion.charge)).length)
    (hint : c.intensity = sumQ (c.ions.map Ion.intensity))
    (hm : c.mass = estimateComponentMass c.ions) :
    (mkPrimaryComponent lib cfg c).chargeStates = c.chargeStates ∧
    (mkPrimaryComponent lib cfg c).numCharges = c.numCharges ∧
    (mkPrimaryComponent lib cfg c).intensity = c.intensity ∧
    (mkPrimaryComponent lib cfg c).mass = c.mass ∧
    (mkPrimaryComponent lib cfg c).secondPass = false ∧
    (mkPrimaryComponent lib cfg c).ionIdx = c.ionIdx := by
  unfold mkPrimaryComponent
  split
  · exact ⟨hcs.symm, hnc.symm, hint.symm, hm.symm, rfl, rfl⟩
  · exact ⟨rfl, rfl, rfl, rfl, rfl, rfl⟩

/-- Per-element properties survive the primary selection fold. -/
theorem selStep_foldl_forall (lib : NumLib) (cfg : Config) (Q : Component → Prop) :
    ∀ (cs : List Candidate) (st : List Component × Finset ℕ),
    (∀ r ∈ st.1, Q r) →
    (∀ c ∈ cs, Q (mkPrimaryComponent lib cfg c)) →
    ∀ r ∈ (cs.foldl (selStep lib cfg) st).1, Q r := by
  intro cs
  induction cs with
  | nil => intro st h1 _; exact h1
  | cons c cs ih =>
    intro st h1 h2
    rw [List.foldl_cons]
    apply ih
    · intro r hr
      unfold selStep at hr
      split at hr
      · exact h1 r hr
      · split at hr
        · split at hr
          · exact h1 r hr
          · rcases List.mem_append.mp hr with h | h
            · exact h1 r h
            · rw [List.mem_singleton.mp h]
              exact h2 c (List.mem_cons_self c cs)
        · exact h1 r hr
    · intro c' hc'
      exact h2 c' (List.mem_cons_of_mem c hc')

/-- Per-element properties survive the residual selection fold. -/
theorem selStepResidual_foldl_forall (cfg : Config) (Q : Component → Prop) :
    ∀ (cs : List Candidate) (st : List Component × Finset ℕ),
    (∀ r ∈ st.1, Q r) →
    (∀ c ∈ cs, Q (mkResidualComponent c)) →
    ∀ r ∈ (cs.foldl (selStepResidual cfg) st).1, Q r := by
  intro cs
  induction cs with
  | nil => intro st h1 _; exact h1
  | cons c cs ih =>
    intro st h1 h2
    rw [List.foldl_cons]
    apply ih
    · intro r hr
      unfold selStepResidual at hr
      split at hr
      · exact h1 r hr
      · split at hr
        · exact h1 r hr
        · rcases List.mem_append.mp hr with h | h
          · exact h1 r h
          · rw [List.mem_singleton.mp h]
            exact h2 c (List.mem_cons_self c cs)
    · intro c' hc'
      exact h2 c' (List.mem_cons_of_mem c hc')

/-- Claim C2: every candidate emitted by the primary pass of the
charge-ladder generator — and hence every returned component not tagged
second_pass — satisfies the two-tier contiguity gate: with K distinct
charges and L the longest consecutive run, K >= 8 forces
L >= max(contig_min, 6) and L/K >= 0.60; 4 <= K < 8 forces L >= 4 and
L/K >= 0.60; otherwise L >= contig_min. -/
theorem two_tier_contiguity (lib : NumLib) (cfg : Config)
    (mz intensityIn : List ℚ) :
    (∀ c ∈ genPrimaryCandidates lib cfg
        (pickPeaks lib mz intensityIn cfg.pwhh cfg.noiseCutoff),
      claimContigGate cfg.contigMin c.chargeStates) ∧
    (∀ comp ∈ deconvolute lib cfg mz intensityIn, comp.secondPass = false →
      claimContigGate cfg.contigMin comp.chargeStates) := by
  have hprim : ∀ peaks : List Peak, ∀ c ∈ genPrimaryCandidates lib cfg peaks,
      claimContigGate cfg.contigMin c.chargeStates := by
    intro peaks c hc
    obtain ⟨a, _, z0, _, heq⟩ := mem_genPrimaryCandidates hc
    obtain ⟨_, _, _, _, _, _, _, hcontig, _⟩ :=
      primaryCandidate_fields lib cfg peaks a z0 c heq
    exact contiguityOkPrimary_implies_claim _ _ hcontig
  refine ⟨hprim _, ?_⟩
  intro comp hcomp
  simp only [deconvolute] at hcomp
  split at hcomp
  · simp at hcomp
  · split at hcomp
    · simp at hcomp
    · split at hcomp
      · simp at hcomp
      · have hmem := mem_sortLe.mp hcomp
        set peaks := pickPeaks lib mz intensityIn cfg.pwhh cfg.noiseCutoff
          with hpeaks
        set stPair := (sortLe candKeyGE
          (genPrimaryCandidates lib cfg peaks)).foldl (selStep lib cfg) ([], ∅)
          with hstPair
        have hQprim : ∀ r ∈ stPair.1,
            r.secondPass = false → claimContigGate cfg.contigMin r.chargeStates := by
          rw [hstPair]
          apply selStep_foldl_forall
          · intro r hr
            simp at hr
          · intro c hc _
            obtain ⟨a, _, z0, _, heq⟩ :=
              mem_genPrimaryCandidates (mem_sortLe.mp hc)
            obtain ⟨_, hcs, hnc, hm, hint, _, _, hcontig, _⟩ :=
              primaryCandidate_fields lib cfg peaks a z0 c heq
            obtain ⟨hmk, _, _, _, _, _⟩ :=
              mkPrimaryComponent_fields lib cfg c hcs hnc hint hm
            rw [hmk, hcs]
            rw [hcs] at hcontig
            exact contiguityOkPrimary_implies_claim _ _ hcontig
        simp only [residualPass] at hmem
        split at hmem
        · exact hQprim comp hmem
        · refine selStepResidual_foldl_forall cfg
            (fun r => r.secondPass = false →
              claimContigGate cfg.contigMin r.chargeStates) _ (stPair.1, ∅)
            hQprim ?_ comp hmem
          intro c hc hsp
          obtain ⟨a, _, z0, _, heq⟩ := mem_residualCands (mem_sortLe.mp hc)
          obtain ⟨_, _, _, htag⟩ := residualCandidate_fields lib cfg _ a z0 c heq
          have : (mkResidualComponent c).secondPass = true := htag
          rw [hsp] at this
          exact absurd this (by simp)

/-- Witness for C2 on the concrete seven-point spectrum: the gate holds at
the first generated candidate and at the first returned component. -/
theorem two_tier_contiguity_witness :
    claimContigGate cfgW.contigMin
      ((genPrimaryCandidates libTriv cfgW peaksW).head!).chargeStates ∧
    claimContigGate cfgW.contigMin
      ((deconvolute libTriv cfgW mzW intW).head!).chargeStates :=
  ⟨(two_tier_contiguity libTriv cfgW mzW intW).1 _
    (by
      have hne : genPrimaryCandidates libTriv cfgW peaksW ≠ [] := by
        with_unfolding_all decide
      have := List.head!_mem_self hne
      simpa [peaksW] using this),
   (two_tier_contiguity libTriv cfgW mzW intW).2 _
    (List.head!_mem_self (by with_unfolding_all decide))
    (by with_unfolding_all decide)⟩

/-! ## Claim C1: exclusive peak assignment -/

theorem mkPrimaryComponent_ionIdx (lib : NumLib) (cfg : Config) (c : Candidate) :
    (mkPrimaryComponent lib cfg c).ionIdx = c.ionIdx := by
  unfold mkPrimaryComponent
  split <;> rfl

theorem mkResidualComponent_ionIdx (c : Candidate) :
    (mkResidualComponent c).ionIdx = c.ionIdx := rfl

theorem primaryCandidate_ionIdx_subset (lib : NumLib) (cfg : Config)
    (ps : List Peak) (anchor : Peak) (z0 : ℤ) (cand : Candidate)
    (h : primaryCandidate lib cfg ps anchor z0 = some cand) :
    cand.ionIdx ⊆ (ps.map Peak.index).toFinset := by
  obtain ⟨hions, _, _, _, _, hidx, _⟩ :=
    primaryCandidate_fields lib cfg ps anchor z0 cand h
  rw [hidx]
  intro i hi
  rw [List.mem_toFinset] at hi ⊢
  rcases List.mem_map.mp hi with ⟨ion, hion, hie⟩
  obtain ⟨p, hp, hpidx, _, _⟩ := mem_assembleIons _ _ _ _ _ _ _ _ _ ion
    (hions ▸ hion)
  exact List.mem_map.mpr ⟨p, hp, by rw [← hie, hpidx]⟩

theorem residualCandidate_ionIdx_subset (lib : NumLib) (cfg : Config)
    (rps : List Peak) (anchor : Peak) (z0 : ℤ) (cand : Candidate) (S : Finset ℕ)
    (h : residualCandidate lib cfg rps anchor z0 = some cand)
    (hS : ∀ p ∈ rps, p.index ∈ S) :
    cand.ionIdx ⊆ S := by
  obtain ⟨hions, _, hidx, _⟩ :=
    residualCandidate_fields lib cfg rps anchor z0 cand h
  rw [hidx]
  intro i hi
  rw [List.mem_toFinset] at hi
  rcases List.mem_map.mp hi with ⟨ion, hion, hie⟩
  obtain ⟨p, hp, hpidx, _, _⟩ := mem_assembleIons _ _ _ _ _ _ _ _ _ ion
    (hions ▸ hion)
  rw [← hie, hpidx]
  exact hS p hp

/-- One primary selection step preserves the exclusivity invariants under
the default max_overlap = 0: an accepted candidate's peak set is disjoint
from the used set, so components stay pairwise disjoint. -/
theorem selStep_preserves (lib : NumLib) (cfg : Config)
    (h0 : cfg.maxOverlap = 0) (A : Finset ℕ)
    (st : List Component × Finset ℕ) (c : Candidate)
    (h1 : ∀ r ∈ st.1, r.ionIdx ⊆ st.2)
    (h2 : st.1.Pairwise (fun a b => Disjoint a.ionIdx b.ionIdx))
    (h3 : ∀ r ∈ st.1, r.ionIdx ⊆ A)
    (hc : c.ionIdx ⊆ A) :
    (∀ r ∈ (selStep lib cfg st c).1, r.ionIdx ⊆ (selStep lib cfg st c).2) ∧
    ((selStep lib cfg st c).1).Pairwise
      (fun a b => Disjoint a.ionIdx b.ionIdx) ∧
    (∀ r ∈ (selStep lib cfg st c).1, r.ionIdx ⊆ A) := by
  unfold selStep
  split
  · exact ⟨h1, h2, h3⟩
  · rename_i hne
    split
    · rename_i hov
      split
      · exact ⟨h1, h2, h3⟩
      · have hcard : (c.ionIdx ∩ st.2).card = 0 := by
          rw [h0] at hov
          have hpos : (0 : ℚ) < (c.ionIdx.card : ℚ) := by
            have := Finset.card_pos.mpr (Finset.nonempty_iff_ne_empty.mpr hne)
            exact_mod_cast this
          have hnum : (0 : ℚ) ≤ ((c.ionIdx ∩ st.2).card : ℚ) := by positivity
          have hle : ((c.ionIdx ∩ st.2).card : ℚ) ≤ 0 :=
            le_of_not_lt (fun hlt => absurd hov (not_le.mpr (div_pos hlt hpos)))
          have : ((c.ionIdx ∩ st.2).card : ℚ) = 0 := le_antisymm hle hnum
          exact_mod_cast this
        have hdisj : Disjoint c.ionIdx st.2 :=
          Finset.disjoint_iff_inter_eq_empty.mpr (Finset.card_eq_zero.mp hcard)
        refine ⟨?_, ?_, ?_⟩
        · intro r hr
          rcases List.mem_append.mp hr with h | h
          · exact (h1 r h).trans Finset.subset_union_left
          · rw [List.mem_singleton.mp h, mkPrimaryComponent_ionIdx]
            exact Finset.subset_union_right
        · rw [List.pairwise_append]
          refine ⟨h2, List.pairwise_singleton _ _, ?_⟩
          intro a ha b hb
          rw [List.mem_singleton.mp hb, mkPrimaryComponent_ionIdx]
          exact Finset.disjoint_of_subset_left (h1 a ha) hdisj.symm
        · intro r hr
          rcases List.mem_append.mp hr with h | h
          · exact h3 r h
          · rw [List.mem_singleton.mp h, mkPrimaryComponent_ionIdx]
            exact hc
    · exact ⟨h1, h2, h3⟩

/-- The exclusivity invariants hold after the whole primary selection fold. -/
theorem selStep_foldl_disjoint (lib : NumLib) (cfg : Config)
    (h0 : cfg.maxOverlap = 0) (A : Finset ℕ) :
    ∀ (cs : List Candidate) (st : List Component × Finset ℕ),
    (∀ r ∈ st.1, r.ionIdx ⊆ st.2) →
    st.1.Pairwise (fun a b => Disjoint a.ionIdx b.ionIdx) →
    (∀ r ∈ st.1, r.ionIdx ⊆ A) →
    (∀ c ∈ cs, c.ionIdx ⊆ A) →
    ((∀ r ∈ (cs.foldl (selStep lib cfg) st).1,
        r.ionIdx ⊆ (cs.foldl (selStep lib cfg) st).2) ∧
      ((cs.foldl (selStep lib cfg) st).1).Pairwise
        (fun a b => Disjoint a.ionIdx b.ionIdx) ∧
      (∀ r ∈ (cs.foldl (selStep lib cfg) st).1, r.ionIdx ⊆ A)) := by
  intro cs
  induction cs with
  | nil => intro st h1 h2 h3 _; exact ⟨h1, h2, h3⟩
  | cons c cs ih =>
    intro st h1 h2 h3 h4
    rw [List.foldl_cons]
    obtain ⟨g1, g2, g3⟩ := selStep_preserves lib cfg h0 A st c h1 h2 h3
      (h4 c (List.mem_cons_self c cs))
    exact ih (selStep lib cfg st c) g1 g2 g3
      (fun c' hc' => h4 c' (List.mem_cons_of_mem c hc'))

/-- One residual selection step preserves the exclusivity invariants: the
accepted set is disjoint from the residual used set and from every primary
component (whose peaks live in the primary used set A, disjoint from the
residual universe B). -/
theorem selStepResidual_preserves (cfg : Config) (h0 : cfg.maxOverlap = 0)
    (A B U : Finset ℕ) (hAB : Disjoint B A) (hBU : B ⊆ U)
    (st : List Component × Finset ℕ) (c : Candidate)
    (h1 : ∀ r ∈ st.1, r.ionIdx ⊆ A ∪ st.2)
    (h2 : st.1.Pairwise (fun a b => Disjoint a.ionIdx b.ionIdx))
    (h3 : ∀ r ∈ st.1, r.ionIdx ⊆ U)
    (hst2 : st.2 ⊆ B)
    (hc : c.ionIdx ⊆ B) :
    (∀ r ∈ (selStepResidual cfg st c).1,
      r.ionIdx ⊆ A ∪ (selStepResidual cfg st c).2) ∧
    ((selStepResidual cfg st c).1).Pairwise
      (fun a b => Disjoint a.ionIdx b.ionIdx) ∧
    (∀ r ∈ (selStepResidual cfg st c).1, r.ionIdx ⊆ U) ∧
    (selStepResidual cfg st c).2 ⊆ B := by
  unfold selStepResidual
  split
  · exact ⟨h1, h2, h3, hst2⟩
  · rename_i hskip
    split
    · exact ⟨h1, h2, h3, hst2⟩
    · have hdisj : Disjoint c.ionIdx st.2 := by
        push_neg at hskip
        by_cases hne : c.ionIdx = ∅
        · rw [hne]
          exact Finset.disjoint_empty_left _
        · have hov := hskip hne
          rw [h0] at hov
          have hpos : (0 : ℚ) < (c.ionIdx.card : ℚ) := by
            have := Finset.card_pos.mpr (Finset.nonempty_iff_ne_empty.mpr hne)
            exact_mod_cast this
          have hnum : (0 : ℚ) ≤ ((c.ionIdx ∩ st.2).card : ℚ) := by positivity
          have hle : ((c.ionIdx ∩ st.2).card : ℚ) ≤ 0 :=
            le_of_not_lt (fun hlt => absurd hov (not_le.mpr (div_pos hlt hpos)))
          have hz : ((c.ionIdx ∩ st.2).card : ℚ) = 0 := le_antisymm hle hnum
          have hz' : (c.ionIdx ∩ st.2).card = 0 := by exact_mod_cast hz
          exact Finset.disjoint_iff_inter_eq_empty.mpr (Finset.card_eq_zero.mp hz')
      refine ⟨?_, ?_, ?_, ?_⟩
      · intro r hr
        rcases List.mem_append.mp hr with h | h
        · exact (h1 r h).trans
            (Finset.union_subset_union_right Finset.subset_union_left)
        · rw [List.mem_singleton.mp h, mkResidualComponent_ionIdx]
          exact le_trans Finset.subset_union_right Finset.subset_union_right
      · rw [List.pairwise_append]
        refine ⟨h2, List.pairwise_singleton _ _, ?_⟩
        intro a ha b hb
        rw [List.mem_singleton.mp hb, mkResidualComponent_ionIdx]
        have hcA : Disjoint c.ionIdx A := Finset.disjoint_of_subset_left hc hAB
        have : Disjoint c.ionIdx (A ∪ st.2) :=
          Finset.disjoint_union_right.mpr ⟨hcA, hdisj⟩
        exact Finset.disjoint_of_subset_left (h1 a ha) this.symm
      · intro r hr
        rcases List.mem_append.mp hr with h | h
        · exact h3 r h
        · rw [List.mem_singleton.mp h, mkResidualComponent_ionIdx]
          exact hc.trans hBU
      · exact Finset.union_subset hst2 hc

/-- The exclusivity invariants hold after the whole residual fold. -/
theorem selStepResidual_foldl_disjoint (cfg : Config) (h0 : cfg.maxOverlap = 0)
    (A B U : Finset ℕ) (hAB : Disjoint B A) (hBU : B ⊆ U) :
    ∀ (cs : List Candidate) (st : List Component × Finset ℕ),
    (∀ r ∈ st.1, r.ionIdx ⊆ A ∪ st.2) →
    st.1.Pairwise (fun a b => Disjoint a.ionIdx b.ionIdx) →
    (∀ r ∈ st.1, r.ionIdx ⊆ U) →
    st.2 ⊆ B →
    (∀ c ∈ cs, c.ionIdx ⊆ B) →
    (((cs.foldl (selStepResidual cfg) st).1).Pairwise
        (fun a b => Disjoint a.ionIdx b.ionIdx) ∧
      (∀ r ∈ (cs.foldl (selStepResidual cfg) st).1, r.ionIdx ⊆ U)) := by
  intro cs
  induction cs with
  | nil => intro st h1 h2 h3 _ _; exact ⟨h2, h3⟩
  | cons c cs ih =>
    intro st h1 h2 h3 hst2 h4
    rw [List.foldl_cons]
    obtain ⟨g1, g2, g3, g4⟩ := selStepResidual_preserves cfg h0 A B U hAB hBU
      st c h1 h2 h3 hst2 (h4 c (List.mem_cons_self c cs))
    exact ih (selStepResidual cfg st c) g1 g2 g3 g4
      (fun c' hc' => h4 c' (List.mem_cons_of_mem c hc'))

/-- Claim C1: with the default max_overlap = 0, the peak-index sets of all
returned components — primary and second-pass alike — are pairwise
disjoint, and each is contained in the peak picker's index set (so their
union is too). -/
theorem exclusive_peak_assignment (lib : NumLib) (cfg : Config)
    (mz intensityIn : List ℚ) (h0 : cfg.maxOverlap = 0) :
    (deconvolute lib cfg mz intensityIn).Pairwise
      (fun a b => Disjoint a.ionIdx b.ionIdx) ∧
    ∀ comp ∈ deconvolute lib cfg mz intensityIn,
      comp.ionIdx ⊆ ((pickPeaks lib mz intensityIn cfg.pwhh
        cfg.noiseCutoff).map Peak.index).toFinset := by
  have hsymm : Symmetric (fun a b : Component => Disjoint a.ionIdx b.ionIdx) :=
    fun _ _ h => h.symm
  simp only [deconvolute]
  split
  · simp
  · split
    · simp
    · split
      · simp
      · set peaks := pickPeaks lib mz intensityIn cfg.pwhh cfg.noiseCutoff
          with hpeaks
        set Afull := (peaks.map Peak.index).toFinset with hAfull
        set stPair := (sortLe candKeyGE
          (genPrimaryCandidates lib cfg peaks)).foldl (selStep lib cfg) ([], ∅)
          with hstPair
        obtain ⟨hP1, hP2, hP3⟩ := selStep_foldl_disjoint lib cfg h0 Afull
          (sortLe candKeyGE (genPrimaryCandidates lib cfg peaks)) ([], ∅)
          (by simp) (by simp) (by simp)
          (by
            intro c hc
            obtain ⟨a, _, z0, _, heq⟩ :=
              mem_genPrimaryCandidates (mem_sortLe.mp hc)
            exact primaryCandidate_ionIdx_subset lib cfg peaks a z0 c heq)
        rw [← hstPair] at hP1 hP2 hP3
        have hfinal : (residualPass lib cfg peaks stPair.2 stPair.1).Pairwise
            (fun a b => Disjoint a.ionIdx b.ionIdx) ∧
            ∀ r ∈ residualPass lib cfg peaks stPair.2 stPair.1,
              r.ionIdx ⊆ Afull := by
          simp only [residualPass]
          split
          · exact ⟨hP2, hP3⟩
          · set B := (peaks.map Peak.index).toFinset \ stPair.2 with hB
            refine selStepResidual_foldl_disjoint cfg h0 stPair.2 B Afull
              (Finset.sdiff_disjoint) ?_ _ (stPair.1, ∅) ?_ hP2 hP3 ?_ ?_
            · rw [hB, hAfull]
              exact Finset.sdiff_subset
            · intro r hr
              exact (hP1 r hr).trans Finset.subset_union_left
            · simp
            · intro c hc
              obtain ⟨a, _, z0, _, heq⟩ := mem_residualCands (mem_sortLe.mp hc)
              refine residualCandidate_ionIdx_subset lib cfg _ a z0 c B heq ?_
              intro p hp
              have := mem_sortLe.mp hp
              rcases List.mem_filter.mp this with ⟨_, hcond⟩
              rw [hB]
              exact of_decide_eq_true hcond
        constructor
        · exact ((sortLe_perm compKeyGE _).pairwise_iff
            (fun h => hsymm h)).mpr hfinal.1
        · intro comp hcomp
          exact hfinal.2 comp (mem_sortLe.mp hcomp)

/-- Witness for C1: the concrete seven-point run with the default zero
max_overlap. -/
theorem exclusive_peak_assignment_witness :
    cfgW.maxOverlap = 0 ∧
    ((deconvolute libTriv cfgW mzW intW).Pairwise
      (fun a b => Disjoint a.ionIdx b.ionIdx) ∧
    ∀ comp ∈ deconvolute libTriv cfgW mzW intW,
      comp.ionIdx ⊆ ((pickPeaks libTriv mzW intW cfgW.pwhh
        cfgW.noiseCutoff).map Peak.index).toFinset) :=
  ⟨rfl, exclusive_peak_assignment libTriv cfgW mzW intW rfl⟩

/-! ## Claim C3: duplicate-mass suppression -/

/-- The primary duplicate test between an earlier component a and a later
one b: masses within 50 ppm relative to the later one, and a shared charge
state. -/
def massDupWith (a b : Component) : Prop :=
  |a.mass - b.mass| / b.mass < 5 / 100000 ∧
    ∃ z ∈ a.chargeStates, z ∈ b.chargeStates

instance (a b : Component) : Decidable (massDupWith a b) := by
  unfold massDupWith
  infer_instance

theorem candKeyGE_total (a b : Candidate) :
    candKeyGE a b = true ∨ candKeyGE b a = true := by
  unfold candKeyGE
  rcases lt_trichotomy a.numCharges b.numCharges with h | h | h
  · right; exact decide_eq_true (Or.inl h)
  · rcases le_total a.intensity b.intensity with h2 | h2
    · right; exact decide_eq_true (Or.inr ⟨h.symm, h2⟩)
    · left; exact decide_eq_true (Or.inr ⟨h, h2⟩)
  · left; exact decide_eq_true (Or.inl h)

theorem candKeyGE_trans (a b c : Candidate) (h1 : candKeyGE a b = true)
    (h2 : candKeyGE b c = true) : candKeyGE a c = true := by
  simp only [candKeyGE, decide_eq_true_eq] at h1 h2 ⊢
  rcases h1 with h1 | ⟨h1a, h1b⟩ <;> rcases h2 with h2 | ⟨h2a, h2b⟩
  · exact Or.inl (lt_trans h2 h1)
  · exact Or.inl (by omega)
  · exact Or.inl (by omega)
  · exact Or.inr ⟨by omega, le_trans h2b h1b⟩

theorem compKeyGE_total (a b : Component) :
    compKeyGE a b = true ∨ compKeyGE b a = true := by
  unfold compKeyGE
  rcases lt_trichotomy a.numCharges b.numCharges with h | h | h
  · right; exact decide_eq_true (Or.inl h)
  · rcases le_total a.intensity b.intensity with h2 | h2
    · right; exact decide_eq_true (Or.inr ⟨h.symm, h2⟩)
    · left; exact decide_eq_true (Or.inr ⟨h, h2⟩)
  · left; exact decide_eq_true (Or.inl h)

theorem compKeyGE_trans (a b c : Component) (h1 : compKeyGE a b = true)
    (h2 : compKeyGE b c = true) : compKeyGE a c = true := by
  simp only [compKeyGE, decide_eq_true_eq] at h1 h2 ⊢
  rcases h1 with h1 | ⟨h1a, h1b⟩ <;> rcases h2 with h2 | ⟨h2a, h2b⟩
  · exact Or.inl (lt_trans h2 h1)
  · exact Or.inl (by omega)
  · exact Or.inl (by omega)
  · exact Or.inr ⟨by omega, le_trans h2b h1b⟩

theorem compKeyGE_mk_of_candKeyGE (lib : NumLib) (cfg : Config)
    (c c' : Candidate)
    (hnc : (mkPrimaryComponent lib cfg c).numCharges = c.numCharges)
    (hint : (mkPrimaryComponent lib cfg c).intensity = c.intensity)
    (hnc' : (mkPrimaryComponent lib cfg c').numCharges = c'.numCharges)
    (hint' : (mkPrimaryComponent lib cfg c').intensity = c'.intensity)
    (h : candKeyGE c c' = true) :
    compKeyGE (mkPrimaryComponent lib cfg c)
      (mkPrimaryComponent lib cfg c') = true := by
  simp only [compKeyGE, candKeyGE, decide_eq_true_eq] at h ⊢
  rw [hnc, hint, hnc', hint']
  exact h

/-- Through the primary fold, the accepted components stay pairwise
non-duplicate (oriented to the later one) and key-descending. -/
theorem selStep_foldl_dup (lib : NumLib) (cfg : Config) :
    ∀ (cs : List Candidate) (st : List Component × Finset ℕ),
    cs.Pairwise (fun a b => candKeyGE a b = true) →
    (∀ c ∈ cs, c.chargeStates = sortedUniqueCharges c.ions ∧
      c.numCharges = (firstDedup (c.ions.map Ion.charge)).length ∧
      c.intensity = sumQ (c.ions.map Ion.intensity) ∧
      c.mass = estimateComponentMass c.ions) →
    st.1.Pairwise (fun a b => ¬ massDupWith a b ∧ compKeyGE a b = true) →
    (∀ r ∈ st.1, ∀ c ∈ cs, compKeyGE r (mkPrimaryComponent lib cfg c) = true) →
    ((cs.foldl (selStep lib cfg) st).1).Pairwise
      (fun a b => ¬ massDupWith a b ∧ compKeyGE a b = true) := by
  intro cs
  induction cs with
  | nil => intro st _ _ h3 _; exact h3
  | cons c cs ih =>
    intro st hsorted hwf h3 h4
    rw [List.foldl_cons]
    rcases List.pairwise_cons.mp hsorted with ⟨hch, hcs⟩
    obtain ⟨hwfc1, hwfc2, hwfc3, hwfc4⟩ := hwf c (List.mem_cons_self c cs)
    obtain ⟨hmkcs, hmknc, hmkint, hmkmass, _, _⟩ :=
      mkPrimaryComponent_fields lib cfg c hwfc1 hwfc2 hwfc3 hwfc4
    apply ih
    · exact hcs
    · exact fun c' hc' => hwf c' (List.mem_cons_of_mem c hc')
    · unfold selStep
      split
      · exact h3
      · split
        · split
          · exact h3
          · rename_i hdup
            rw [List.pairwise_append]
            refine ⟨h3, List.pairwise_singleton _ _, ?_⟩
            intro a ha b hb
            rw [List.mem_singleton.mp hb]
            constructor
            · intro hcontra
              unfold massDupWith at hcontra
              rw [hmkmass, hmkcs] at hcontra
              exact hdup ⟨a, ha, hcontra⟩
            · exact h4 a ha c (List.mem_cons_self c cs)
        · exact h3
    · intro r hr c' hc'
      unfold selStep at hr
      split at hr
      · exact h4 r hr c' (List.mem_cons_of_mem c hc')
      · split at hr
        · split at hr
          · exact h4 r hr c' (List.mem_cons_of_mem c hc')
          · rcases List.mem_append.mp hr with h | h
            · exact h4 r h c' (List.mem_cons_of_mem c hc')
            · rw [List.mem_singleton.mp h]
              obtain ⟨hw1, hw2, hw3, hw4⟩ := hwf c' (List.mem_cons_of_mem c hc')
              obtain ⟨_, hnc', hint', _, _, _⟩ :=
                mkPrimaryComponent_fields lib cfg c' hw1 hw2 hw3 hw4
              exact compKeyGE_mk_of_candKeyGE lib cfg c c' hmknc hmkint hnc'
                hint' (hch c' hc')
        · exact h4 r hr c' (List.mem_cons_of_mem c hc')

/-- Any pairwise property vacuous on second-pass right elements survives the
residual fold, because every appended component is tagged second_pass. -/
theorem selStepResidual_foldl_tagged (cfg : Config)
    (S : Component → Component → Prop)
    (hvac : ∀ a b, b.secondPass = true → S a b) :
    ∀ (cs : List Candidate) (st : List Component × Finset ℕ),
    st.1.Pairwise S →
    (∀ c ∈ cs, (mkResidualComponent c).secondPass = true) →
    ((cs.foldl (selStepResidual cfg) st).1).Pairwise S := by
  intro cs
  induction cs with
  | nil => intro st h1 _; exact h1
  | cons c cs ih =>
    intro st h1 h2
    rw [List.foldl_cons]
    apply ih
    · unfold selStepResidual
      split
      · exact h1
      · split
        · exact h1
        · rw [List.pairwise_append]
          refine ⟨h1, List.pairwise_singleton _ _, ?_⟩
          intro a _ b hb
          rw [List.mem_singleton.mp hb]
          exact hvac a _ (h2 c (List.mem_cons_self c cs))
    · exact fun c' hc' => h2 c' (List.mem_cons_of_mem c hc')

/-- Claim C3: (a) a candidate that reaches the duplicate test (nonempty ion
set, overlap within max_overlap) is rejected exactly when some
already-selected component is within 50 ppm relative mass (denominator the
candidate's mass) and shares a charge state; (b) consequently no two
non-second-pass components of the returned list are both within 50 ppm
(relative to the later one) and share a charge state. -/
theorem duplicate_mass_suppression (lib : NumLib) (cfg : Config)
    (mz intensityIn : List ℚ) :
    (∀ (results : List Component) (used : Finset ℕ) (c : Candidate),
      c.ionIdx ≠ ∅ →
      ((c.ionIdx ∩ used).card : ℚ) / (c.ionIdx.card : ℚ) ≤ cfg.maxOverlap →
      (selStep lib cfg (results, used) c = (results, used) ↔
        ∃ r ∈ results, |r.mass - c.mass| / c.mass < 5 / 100000 ∧
          ∃ z ∈ r.chargeStates, z ∈ c.chargeStates)) ∧
    (deconvolute lib cfg mz intensityIn).Pairwise
      (fun a b => a.secondPass = false → b.secondPass = false →
        ¬ massDupWith a b) := by
  constructor
  · intro results used c hne hov
    unfold selStep
    rw [if_neg hne, if_pos hov]
    split
    · rename_i hdup
      exact ⟨fun _ => hdup, fun _ => rfl⟩
    · rename_i hdup
      constructor
      · intro heq
        exfalso
        have := congrArg (fun p => p.1.length) heq
        simp only [List.length_append, List.length_singleton] at this
        omega
      · intro h
        exact absurd h hdup
  · simp only [deconvolute]
    split
    · simp
    · split
      · simp
      · split
        · simp
        · set peaks := pickPeaks lib mz intensityIn cfg.pwhh cfg.noiseCutoff
            with hpeaks
          set stPair := (sortLe candKeyGE
            (genPrimaryCandidates lib cfg peaks)).foldl (selStep lib cfg)
            ([], ∅) with hstPair
          have hprimary : stPair.1.Pairwise
              (fun a b => ¬ massDupWith a b ∧ compKeyGE a b = true) := by
            rw [hstPair]
            apply selStep_foldl_dup lib cfg _ ([], ∅)
            · exact pairwise_le_sortLe candKeyGE candKeyGE_total candKeyGE_trans _
            · intro c hc
              obtain ⟨a, _, z0, _, heq⟩ :=
                mem_genPrimaryCandidates (mem_sortLe.mp hc)
              obtain ⟨_, hcs, hnc, hm, hint, _, _, _, _⟩ :=
                primaryCandidate_fields lib cfg peaks a z0 c heq
              exact ⟨hcs, hnc, hint, hm⟩
            · simp
            · simp
          have hprimary_tags : ∀ r ∈ stPair.1, r.secondPass = false := by
            rw [hstPair]
            apply selStep_foldl_forall lib cfg (fun r => r.secondPass = false)
            · simp
            · intro c _
              unfold mkPrimaryComponent
              split <;> rfl
          have hS : (residualPass lib cfg peaks stPair.2 stPair.1).Pairwise
              (fun a b => a.secondPass = false → b.secondPass = false →
                (¬ massDupWith a b ∧ compKeyGE a b = true)) := by
            simp only [residualPass]
            split
            · exact hprimary.imp (fun h _ _ => h)
            · apply selStepResidual_foldl_tagged cfg _
                (fun a b hb h1 h2 => absurd (h2 ▸ hb) (by simp)) _ (stPair.1, ∅)
              · exact hprimary.imp (fun h _ _ => h)
              · intro c hc
                obtain ⟨a, _, z0, _, heq⟩ := mem_residualCands (mem_sortLe.mp hc)
                obtain ⟨_, _, _, htag⟩ :=
                  residualCandidate_fields lib cfg _ a z0 c heq
                exact htag
          apply pairwise_sortLe_of_rel compKeyGE compKeyGE_total compKeyGE_trans
            _ _ hS
          intro a b hab
          constructor
          · intro hle ha hb
            exact (hab ha hb).1
          · intro hle hb ha
            exact absurd (hab ha hb).2 (by rw [hle]; simp)

/-- Witness for C3: the duplicate-test characterisation at a concrete empty
state and candidate, plus the pairwise consequence on the concrete run. -/
theorem duplicate_mass_suppression_witness :
    (selStep libTriv cfgW ([], ∅)
        { mass := 12, massStd := 0, chargeStates := [1], numCharges := 1,
          intensity := 5, peaksFound := 1, r2 := 0, anchorIdx := 0,
          ionIdx := {0}, mzBins := ∅, ions := [], secondPass := false } =
        ([], ∅) ↔
      ∃ r ∈ ([] : List Component), |r.mass - 12| / 12 < 5 / 100000 ∧
        ∃ z ∈ r.chargeStates, z ∈ [(1 : ℤ)]) ∧
    (deconvolute libTriv cfgW mzW intW).Pairwise
      (fun a b => a.secondPass = false → b.secondPass = false →
        ¬ massDupWith a b) :=
  ⟨(duplicate_mass_suppression libTriv cfgW mzW intW).1 [] ∅ _
      (by with_unfolding_all decide) (by with_unfolding_all decide),
   (duplicate_mass_suppression libTriv cfgW mzW intW).2⟩

end LcmsSpec
